import Mathlib

/-!
# Border-tally core algorithms: shallow embedding

This file embeds the two core algorithms of the border-tally repository:

* `correctDocumentMatching` (data-correction module): stack-based
  exit/entry pairing over a date-sorted stream, document-identity
  correction, same-day anomaly detection;
* `calculateOverseasDays` (border-calculation module, day-fill variant):
  per-document grouping, id-descending chronological walk filling a
  date-keyed overseas-day set, window counting, and record
  classification via per-document abroad segments.

Conventions of the embedding:

* Calendar dates (`YYYY-MM-DD` strings in the source, all well-formed by
  the ingestion contract) are embedded as integer day numbers; the
  source's `parseRecordDateCST` / `formatDateCST` bijection between
  well-formed strings and CST day anchors becomes the identity, and
  `localeCompare` on date strings becomes integer order.
* Record ids are embedded by the numeric value the code reads from them
  (`parseInt(id) || 0`); issue `recordIds` lists hold these values.
* The JavaScript `Set<string>` of overseas day keys is only ever used
  through `add` and `has`, so it is embedded as a `Finset Int`.
* JavaScript `Map` grouping (insertion-ordered) is embedded as an
  association list updated in place / appended at the end.
* `Array.prototype.sort` with a comparator is stable; it is embedded as
  a stable insertion sort parameterised by the comparator's sign.
* The query bounds and "today" reach the algorithms only as CST
  date-only anchors (`toCSTDateOnly`), so they are passed as day
  numbers; `today` is an explicit parameter of the calculator.
-/

namespace BorderTally

/-- The two crossing types, `出境` (exit) and `入境` (entry). -/
inductive BorderType where
  | exit : BorderType
  | entry : BorderType
deriving DecidableEq, Repr

/-- One border-crossing record (`BorderRecord` in `types/index.ts`);
dates are day numbers, ids their numeric values. -/
structure BorderRecord where
  id : Int
  type : BorderType
  date : Int
  time : Option String
  port : String
  documentName : String
  documentNumber : String
  flightNumber : Option String
deriving DecidableEq, Repr

/-- Stable insertion of `x` into `l`: `x` is placed before the first
element `y` with `after y x = true` (i.e. the comparator puts `y` after
`x`), matching the stable semantics of `Array.prototype.sort`. -/
def stableInsert (after : α → α → Bool) (x : α) : List α → List α
  | [] => [x]
  | y :: ys => if after y x then x :: y :: ys else y :: stableInsert after x ys

/-- Stable sort by a comparator-derived `after` relation (embedding of
`Array.prototype.sort`, which is stable). -/
def stableSortBy (after : α → α → Bool) (l : List α) : List α :=
  l.foldl (fun acc x => stableInsert after x acc) []

/-- Comparator of `sortRecords` in data-correction: date ascending
(`localeCompare` on well-formed date strings), exits before entries on
equal dates, ties keep original order. Only the sign is ever used. -/
def compareDateType (a b : BorderRecord) : Int :=
  if a.date < b.date then -1
  else if b.date < a.date then 1
  else if a.type = b.type then 0
  else if a.type = BorderType.exit then -1 else 1

/-- `sortRecords`: sort by date ascending, same-day exits first (stable). -/
def sortRecords (records : List BorderRecord) : List BorderRecord :=
  stableSortBy (fun y x => 0 < compareDateType y x) records

/-- Comparator `(a, b) => idA - idB` (ascending numeric id). -/
def compareIdAsc (a b : BorderRecord) : Int := a.id - b.id

/-- Comparator `(a, b) => idB - idA` (descending numeric id:
oldest-to-newest under the smaller-id-is-more-recent convention). -/
def compareIdDesc (a b : BorderRecord) : Int := b.id - a.id

/-- Final re-sort of corrected records by ascending numeric id. -/
def sortById (records : List BorderRecord) : List BorderRecord :=
  stableSortBy (fun y x => 0 < compareIdAsc y x) records

/-- Chronological sort used by the day-fill calculator: numeric id
descending (id 1 is the newest record). -/
def sortIdDesc (records : List BorderRecord) : List BorderRecord :=
  stableSortBy (fun y x => 0 < compareIdDesc y x) records

/-- The document-identity grouping key
`` `${documentNumber}__${documentName}` ``. -/
def keyOf (r : BorderRecord) : String :=
  r.documentNumber ++ "__" ++ r.documentName

/-- Insert `x` into the group of key `k`, preserving the insertion order
of a JavaScript `Map` (existing key keeps its position, new key is
appended; group members keep arrival order). -/
def upsertGroup [DecidableEq κ] (m : List (κ × List α)) (k : κ) (x : α) :
    List (κ × List α) :=
  match m with
  | [] => [(k, [x])]
  | (k', l) :: rest =>
    if k' = k then (k', l ++ [x]) :: rest else (k', l) :: upsertGroup rest k x

/-- `groupByDocument`: group records by document identity key. -/
def groupByDocument (records : List BorderRecord) :
    List (String × List BorderRecord) :=
  records.foldl (fun m r => upsertGroup m (keyOf r) r) []

/-- The per-group date map of `detectSameDayMultiple`. -/
def groupByDate (records : List BorderRecord) :
    List (Int × List BorderRecord) :=
  records.foldl (fun m r => upsertGroup m r.date r) []

/-- Validation issue types. -/
inductive IssueType where
  | document_mismatch : IssueType
  | same_day_multiple : IssueType
deriving DecidableEq, Repr

/-- Issue severities. -/
inductive Severity where
  | warning : Severity
  | info : Severity
deriving DecidableEq, Repr

/-- `ValidationIssue` of `types/index.ts` (record ids by numeric value). -/
structure ValidationIssue where
  type : IssueType
  severity : Severity
  recordIds : List Int
  message : String
  suggestion : Option String
deriving DecidableEq, Repr

/-- `DataValidationResult` of `types/index.ts`. -/
structure DataValidationResult where
  correctedRecords : List BorderRecord
  issues : List ValidationIssue
  originalRecordsCount : Nat
  correctedCount : Nat
deriving DecidableEq, Repr

/-- The `document_mismatch` issue pushed when a popped exit `e` and the
current entry `r` disagree on document identity. -/
def mismatchIssue (e r : BorderRecord) : ValidationIssue :=
  { type := IssueType.document_mismatch
    severity := Severity.info
    recordIds := [e.id, r.id]
    message := "已修正证件不匹配：" ++ toString e.date ++ " 使用 " ++
      e.documentName ++ " 出境，" ++ toString r.date ++
      " 的入境证件已自动修正为 " ++ e.documentName
    suggestion := none }

/-- The `same_day_multiple` issue for a date cell with more than two
records of one document identity. -/
def sameDayIssue (dt : Int) (recs : List BorderRecord) : ValidationIssue :=
  { type := IssueType.same_day_multiple
    severity := Severity.info
    recordIds := recs.map (fun r => r.id)
    message := toString dt ++ " 同一天有 " ++ toString recs.length ++
      " 条出入境记录"
    suggestion := some "这可能是同日多次跨境的正常情况" }

/-- `detectSameDayMultiple`: group by document identity, then by date;
every date cell with strictly more than 2 records emits one issue, in
group-then-date insertion order. -/
def detectSameDayMultiple (records : List BorderRecord) :
    List ValidationIssue :=
  ((groupByDocument records).flatMap fun p =>
    (groupByDate p.2).filter fun q => 2 < q.2.length).map
    fun q => sameDayIssue q.1 q.2

/-- The stack-pairing walk of `correctDocumentMatching` over the sorted
stream: arguments are the remaining records and the stack of unmatched
exits; result is the corrected list (in processing order), the
`document_mismatch` issues (in emission order) and the correction count. -/
def processRecords : List BorderRecord → List BorderRecord →
    List BorderRecord × List ValidationIssue × Nat
  | [], _ => ([], [], 0)
  | r :: rest, stack =>
    match r.type with
    | BorderType.exit =>
      let p := processRecords rest (r :: stack)
      (r :: p.1, p.2.1, p.2.2)
    | BorderType.entry =>
      match stack with
      | [] =>
        let p := processRecords rest []
        (r :: p.1, p.2.1, p.2.2)
      | e :: stack' =>
        if r.documentNumber = e.documentNumber ∧
            r.documentName = e.documentName then
          let p := processRecords rest stack'
          (r :: p.1, p.2.1, p.2.2)
        else
          let corrected : BorderRecord :=
            { r with documentNumber := e.documentNumber
                     documentName := e.documentName }
          let p := processRecords rest stack'
          (corrected :: p.1, mismatchIssue e r :: p.2.1, p.2.2 + 1)

/-- The pairing phase of `correctDocumentMatching`: walk the
date-sorted stream with an empty initial stack. -/
def pairingPhase (records : List BorderRecord) :
    List BorderRecord × List ValidationIssue × Nat :=
  processRecords (sortRecords records) []

/-- `correctDocumentMatching`: sort, pair with a stack, detect same-day
anomalies on the corrected records, re-sort by ascending id. -/
def correctDocumentMatching (records : List BorderRecord) :
    DataValidationResult :=
  let p := pairingPhase records
  { correctedRecords := sortById p.1
    issues := p.2.1 ++ detectSameDayMultiple p.1
    originalRecordsCount := records.length
    correctedCount := p.2.2 }

/-- `daysInclusiveCST`: inclusive day count of `[a, b]`, `0` when
`b < a`. -/
def daysInclusiveCST (a b : Int) : Nat :=
  if b < a then 0 else (b - a + 1).toNat

/-- `getDaysInRange` re-exports `daysInclusiveCST`. -/
def getDaysInRange (a b : Int) : Nat := daysInclusiveCST a b

/-- Fuelled day-fill loop: add `fuel` consecutive days starting at
`cur` to the set (the source's `while (current <= end)` loop). -/
def fillDaysAux : Nat → Int → Finset Int → Finset Int
  | 0, _, s => s
  | n + 1, cur, s => fillDaysAux n (cur + 1) (insert cur s)

/-- Add every day of `[a, b]` (none when `b < a`) to the set. -/
def fillDays (a b : Int) (s : Finset Int) : Finset Int :=
  fillDaysAux (b - a + 1).toNat a s

/-- The per-group walk of `fillOverseasDaysCST`: state is the
`isAbroad` flag and the last unmatched exit date; at the end an open
stay is filled through `today`. -/
def fillWalk (today : Int) :
    List BorderRecord → Bool → Option Int → Finset Int → Finset Int
  | [], isAbroad, lastExit, s =>
    if isAbroad then
      match lastExit with
      | some e => fillDays e today s
      | none => s
    else s
  | r :: rest, isAbroad, lastExit, s =>
    match r.type with
    | BorderType.exit =>
      let s' :=
        if isAbroad then
          match lastExit with
          | some e => fillDays e (r.date - 1) s
          | none => s
        else s
      fillWalk today rest true (some r.date) s'
    | BorderType.entry =>
      let s' :=
        if isAbroad then
          match lastExit with
          | some e => fillDays e r.date s
          | none => s
        else s
      fillWalk today rest false none s'

/-- `fillOverseasDaysCST`: group by document identity, walk each group
in id-descending (oldest-to-newest) order, union all filled days. -/
def fillOverseasDaysCST (records : List BorderRecord) (today : Int) :
    Finset Int :=
  (groupByDocument records).foldl
    (fun s p => fillWalk today (sortIdDesc p.2) false none s) ∅

/-- An abroad segment: exit day and entry day (`none` = still abroad). -/
structure Segment where
  exit : Int
  entry : Option Int
deriving DecidableEq, Repr

/-- Per-group segment walk of the day-fill file's
`buildAbroadSegmentsCST` (no normalization of reversed pairs). -/
def segWalk : List BorderRecord → Option Int → List Segment
  | [], openExit =>
    match openExit with
    | some e => [{ exit := e, entry := none }]
    | none => []
  | r :: rest, openExit =>
    match r.type with
    | BorderType.exit => segWalk rest (some r.date)
    | BorderType.entry =>
      match openExit with
      | some e => { exit := e, entry := some r.date } :: segWalk rest none
      | none => segWalk rest openExit

/-- `buildAbroadSegmentsCST` (day-fill file): group by document
identity, pair exits with entries in id-descending order, keep an open
segment if a group ends abroad. `today` is accepted but unused, as in
the source. -/
def buildAbroadSegmentsCST (records : List BorderRecord) (_today : Int) :
    List Segment :=
  (groupByDocument records).foldl
    (fun acc p => acc ++ segWalk (sortIdDesc p.2) none) []

/-- Fuelled window-count loop: walk `fuel` consecutive days from `cur`,
counting members of the overseas-day set. -/
def countDaysAux : Nat → Int → Finset Int → Nat
  | 0, _, _ => 0
  | n + 1, cur, s =>
    (if cur ∈ s then 1 else 0) + countDaysAux n (cur + 1) s

/-- The query-window count of `calculateOverseasDays`: walk the days of
`[a, b]` and count membership in the overseas-day set. -/
def countOverseas (a b : Int) (s : Finset Int) : Nat :=
  countDaysAux (b - a + 1).toNat a s

/-- `CalculationResult` of `types/index.ts`. -/
structure CalculationResult where
  totalOverseasDays : Nat
  totalRecords : Nat
  overseasRecords : List BorderRecord
  domesticRecords : List BorderRecord
deriving DecidableEq, Repr

/-- Is day `d` inside any segment (open segments end at `today`)? -/
def inAnySegment (today : Int) (segments : List Segment) (d : Int) : Bool :=
  segments.any fun s =>
    decide (s.exit ≤ d ∧ d ≤ (s.entry.getD today))

/-- `calculateOverseasDays` (day-fill variant): fill the overseas-day
set, count its days inside `[queryStart, queryEnd]`, and classify the
in-window records by segment membership. -/
def calculateOverseasDays (records : List BorderRecord)
    (queryStart queryEnd today : Int) : CalculationResult :=
  let overseasDays := fillOverseasDaysCST records today
  let totalOverseasDays := countOverseas queryStart queryEnd overseasDays
  let segments := buildAbroadSegmentsCST records today
  let recordsInRange := records.filter fun r =>
    decide (queryStart ≤ r.date ∧ r.date ≤ queryEnd)
  let overseasRecords := recordsInRange.filter fun r =>
    inAnySegment today segments r.date
  let domesticRecords := recordsInRange.filter fun r =>
    !(inAnySegment today segments r.date)
  { totalOverseasDays := totalOverseasDays
    totalRecords := recordsInRange.length
    overseasRecords := overseasRecords
    domesticRecords := domesticRecords }

/-! ### Definitions supporting the claim statements -/

/-- A record with the given id, type, date and document identity and
empty display-only fields; used for concrete inputs. -/
def mkRec (id : Int) (ty : BorderType) (date : Int) (nm num : String) :
    BorderRecord :=
  { id := id, type := ty, date := date, time := none, port := ""
    documentName := nm, documentNumber := num, flightNumber := none }

/-- Erase the (never-read) `time` field. Two inputs "differ only in
their time fields" exactly when their `stripTime` images are equal. -/
def stripTime (r : BorderRecord) : BorderRecord := { r with time := none }

/-- `s` equals `r` in every field except possibly the document
identity (`documentName` / `documentNumber`). -/
def sameExceptDocs (r s : BorderRecord) : Prop :=
  s.id = r.id ∧ s.type = r.type ∧ s.date = r.date ∧ s.time = r.time ∧
    s.port = r.port ∧ s.flightNumber = r.flightNumber

/-- One abroad span of a document: an exit event and the matching entry
event, with their (numeric) record ids. -/
structure Trip where
  exitId : Int
  entryId : Int
  exitDay : Int
  entryDay : Int
deriving DecidableEq, Repr

/-- A document identity together with its list of abroad spans. -/
structure DocSpec where
  docName : String
  docNumber : String
  trips : List Trip
deriving DecidableEq, Repr

/-- The document-identity grouping key of a `DocSpec`. -/
def docKey (d : DocSpec) : String := d.docNumber ++ "__" ++ d.docName

/-- The two events (exit then entry) of one trip of a document. -/
def tripEvents (nm num : String) (t : Trip) : List BorderRecord :=
  [mkRec t.exitId BorderType.exit t.exitDay nm num,
   mkRec t.entryId BorderType.entry t.entryDay nm num]

/-- All events of one document, oldest trip first. -/
def docEvents (d : DocSpec) : List BorderRecord :=
  d.trips.flatMap (tripEvents d.docName d.docNumber)

/-- The event list of a family of documents. -/
def mkInput (docs : List DocSpec) : List BorderRecord :=
  docs.flatMap docEvents

/-- The inclusive day interval of a trip. -/
def tripDays (t : Trip) : Finset Int := Finset.Icc t.exitDay t.entryDay

/-- Union of a list of finite sets. -/
def listUnion : List (Finset Int) → Finset Int
  | [] => ∅
  | s :: rest => s ∪ listUnion rest

/-- Lookup the group of key `k` in an association list (the view of a
JavaScript `Map` used to reason about the grouping folds). -/
def lookupG [DecidableEq κ] (k : κ) : List (κ × List α) → List α
  | [] => []
  | (k', g) :: rest => if k' = k then g else lookupG k rest

/-- The strict total order "(date, exit-before-entry) then numeric id"
in which the pairing phase processes an id-ascending input. -/
def recLT (a b : BorderRecord) : Prop :=
  compareDateType a b < 0 ∨ (compareDateType a b = 0 ∧ a.id < b.id)

/-- Counterexample input for the idempotence claim: two same-day exits
whose input order (document A first) disagrees with their id order, so
the first pass pairs entry 3 with exit 1 and entry 4 with exit 2 (all
matching), while the second pass, run on the id-sorted output, pairs
entry 3 with exit 2 and entry 4 with exit 1 (both mismatching). -/
def cexReorderedIds : List BorderRecord :=
  [mkRec 2 BorderType.exit 1 "A" "A", mkRec 1 BorderType.exit 1 "B" "B",
   mkRec 3 BorderType.entry 2 "B" "B", mkRec 4 BorderType.entry 2 "A" "A"]

/-- Counterexample input for the reversed-pair claim: one document
whose exit (id 2, day 10) is followed chronologically by an entry
(id 1, day 5) dated before it. -/
def cexReversedPair : List BorderRecord :=
  [mkRec 2 BorderType.exit 10 "P" "P1", mkRec 1 BorderType.entry 5 "P" "P1"]

/-! ### Basic lemmas about the day-fill and window-count loops -/

theorem fillDaysAux_eq (n : ℕ) : ∀ (cur : ℤ) (s : Finset ℤ),
    fillDaysAux n cur s = s ∪ Finset.Icc cur (cur + n - 1) := by
  induction n with
  | zero =>
    intro cur s
    have h : Finset.Icc cur (cur + (0 : ℕ) - 1) = ∅ :=
      Finset.Icc_eq_empty (by omega)
    simp [fillDaysAux, h]
  | succ n ih =>
    intro cur s
    rw [fillDaysAux, ih]
    ext d
    by_cases hd : d ∈ s <;>
      simp [hd, Finset.mem_Icc, Finset.mem_insert] <;> omega

theorem fillDays_eq (a b : ℤ) (s : Finset ℤ) :
    fillDays a b s = s ∪ Finset.Icc a b := by
  rw [fillDays, fillDaysAux_eq]
  ext d
  by_cases hd : d ∈ s <;>
    simp [hd, Finset.mem_Icc] <;> omega

theorem countDaysAux_le (n : ℕ) : ∀ (cur : ℤ) (s : Finset ℤ),
    countDaysAux n cur s ≤ n := by
  induction n with
  | zero => intro cur s; simp [countDaysAux]
  | succ n ih =>
    intro cur s
    rw [countDaysAux]
    have := ih (cur + 1) s
    split <;> omega

theorem countDaysAux_eq (n : ℕ) : ∀ (cur : ℤ) (s : Finset ℤ),
    countDaysAux n cur s =
      ((Finset.Icc cur (cur + n - 1)).filter (fun d => d ∈ s)).card := by
  induction n with
  | zero =>
    intro cur s
    have h : Finset.Icc cur (cur + (0 : ℕ) - 1) = ∅ :=
      Finset.Icc_eq_empty (by omega)
    simp [countDaysAux, h]
  | succ n ih =>
    intro cur s
    rw [countDaysAux, ih]
    have hsplit : Finset.Icc cur (cur + (n + 1 : ℕ) - 1) =
        insert cur (Finset.Icc (cur + 1) (cur + 1 + n - 1)) := by
      ext d
      simp only [Finset.mem_Icc, Finset.mem_insert]
      omega
    rw [hsplit, Finset.filter_insert]
    by_cases hc : cur ∈ s
    · have hnot : cur ∉
          (Finset.Icc (cur + 1) (cur + 1 + (n : ℤ) - 1)).filter
            (fun d => d ∈ s) := by
        intro hmem
        have h1 := Finset.mem_Icc.mp (Finset.mem_filter.mp hmem).1
        omega
      rw [if_pos hc, if_pos hc, Finset.card_insert_of_not_mem hnot]
      omega
    · rw [if_neg hc, if_neg hc]
      omega

theorem countDaysAux_empty (n : ℕ) : ∀ cur : ℤ,
    countDaysAux n cur ∅ = 0 := by
  induction n with
  | zero => intro cur; simp [countDaysAux]
  | succ n ih => intro cur; simp [countDaysAux, ih]

theorem daysInclusiveCST_eq (a b : ℤ) :
    daysInclusiveCST a b = (b - a + 1).toNat := by
  rw [daysInclusiveCST]; split <;> omega

theorem calc_total_def (records : List BorderRecord) (qs qe today : Int) :
    (calculateOverseasDays records qs qe today).totalOverseasDays =
      countOverseas qs qe (fillOverseasDaysCST records today) := rfl

/-! ### C1 -/

/-- C1: for every input event list (in any order, any document
interleaving) and every query window, `calculateOverseasDays` returns a
`totalOverseasDays` between `0` and the inclusive calendar-day count of
the window (`getDaysInRange`). -/
theorem overseas_total_bounded_by_window
    (records : List BorderRecord) (queryStart queryEnd today : Int) :
    0 ≤ (calculateOverseasDays records queryStart queryEnd
          today).totalOverseasDays ∧
    (calculateOverseasDays records queryStart queryEnd
        today).totalOverseasDays ≤ getDaysInRange queryStart queryEnd := by
  refine ⟨Nat.zero_le _, ?_⟩
  rw [calc_total_def, countOverseas, getDaysInRange, daysInclusiveCST_eq]
  exact countDaysAux_le _ _ _

/-! ### C8 -/

/-- C8: an entry processed while the stack of unmatched exits is empty
is passed through unchanged: it is appended to the output as is, no
issue is emitted, the correction count is untouched and no exit is
fabricated (the stack stays as it was); the walk simply continues.
Both algorithms are total Lean functions, so no input produces an
error. -/
theorem orphan_entry_passes_through (r : BorderRecord)
    (rest : List BorderRecord) (hr : r.type = BorderType.entry) :
    processRecords (r :: rest) [] =
      (r :: (processRecords rest []).1,
       (processRecords rest []).2.1, (processRecords rest []).2.2) := by
  simp only [processRecords, hr]

theorem orphan_entry_passes_through_witness :
    (mkRec 1 BorderType.entry 5 "P" "P1").type = BorderType.entry ∧
    processRecords [mkRec 1 BorderType.entry 5 "P" "P1"] [] =
      ([mkRec 1 BorderType.entry 5 "P" "P1"], [], 0) := by
  refine ⟨rfl, ?_⟩
  rw [orphan_entry_passes_through _ _ rfl]
  decide

/-! ### C3 -/

/-- C3: after the date-ascending, exit-before-entry sort, each entry is
paired by popping the most recently pushed unmatched exit; if their
document identities differ, the emitted entry adopts the exit's
`documentName`/`documentNumber`, the correction counter increases by
one, and one `document_mismatch` issue at `info` severity naming both
record ids is emitted; if the identities match, the entry is emitted
unchanged with no issue. -/
theorem entry_pairs_with_top_exit (r e : BorderRecord)
    (rest stack : List BorderRecord) (hr : r.type = BorderType.entry) :
    (processRecords (r :: rest) (e :: stack) =
      if r.documentNumber = e.documentNumber ∧
          r.documentName = e.documentName then
        (r :: (processRecords rest stack).1,
         (processRecords rest stack).2.1, (processRecords rest stack).2.2)
      else
        ({ r with documentNumber := e.documentNumber,
                  documentName := e.documentName } ::
            (processRecords rest stack).1,
         mismatchIssue e r :: (processRecords rest stack).2.1,
         (processRecords rest stack).2.2 + 1)) ∧
    (mismatchIssue e r).type = IssueType.document_mismatch ∧
    (mismatchIssue e r).severity = Severity.info ∧
    (mismatchIssue e r).recordIds = [e.id, r.id] ∧
    (∀ records, pairingPhase records = processRecords (sortRecords records) []) := by
  refine ⟨?_, rfl, rfl, rfl, fun _ => rfl⟩
  simp only [processRecords, hr]

theorem entry_pairs_with_top_exit_witness :
    (mkRec 2 BorderType.entry 5 "往来港澳通行证" "H001").type =
      BorderType.entry ∧
    processRecords [mkRec 2 BorderType.entry 5 "往来港澳通行证" "H001"]
        [mkRec 1 BorderType.exit 1 "普通护照" "P001"] =
      ([mkRec 2 BorderType.entry 5 "普通护照" "P001"],
       [mismatchIssue (mkRec 1 BorderType.exit 1 "普通护照" "P001")
          (mkRec 2 BorderType.entry 5 "往来港澳通行证" "H001")], 1) := by
  refine ⟨rfl, ?_⟩
  rw [(entry_pairs_with_top_exit
    (mkRec 2 BorderType.entry 5 "往来港澳通行证" "H001")
    (mkRec 1 BorderType.exit 1 "普通护照" "P001") [] [] rfl).1]
  decide

/-! ### Two-record computation helpers (C5, C6) -/

theorem groupByDocument_pair (r1 r2 : BorderRecord)
    (h : keyOf r1 = keyOf r2) :
    groupByDocument [r1, r2] = [(keyOf r1, [r1, r2])] := by
  simp [groupByDocument, upsertGroup, h]

theorem sortIdDesc_pair (r1 r2 : BorderRecord) (h : r2.id < r1.id) :
    sortIdDesc [r1, r2] = [r1, r2] := by
  have hne : ¬ (0 < compareIdDesc r1 r2) := by
    rw [compareIdDesc]; omega
  simp [sortIdDesc, stableSortBy, stableInsert, hne]

theorem fillWalk_exit_entry (r1 r2 : BorderRecord) (today : Int)
    (h1 : r1.type = BorderType.exit) (h2 : r2.type = BorderType.entry) :
    fillWalk today [r1, r2] false none ∅ = Finset.Icc r1.date r2.date := by
  simp [fillWalk, h1, h2, fillDays_eq]

/-! ### C5 -/

/-- C5: a document whose two events are an exit and an entry both dated
`d`, with the entry's numeric id smaller than the exit's (the
smaller-id-is-more-recent convention), contributes exactly the single
day `d` to the overseas-day set, and a query window containing `d`
counts exactly 1 overseas day. -/
theorem same_day_pair_counts_one (rx rn : BorderRecord)
    (d qs qe today : Int)
    (hx : rx.type = BorderType.exit) (hn : rn.type = BorderType.entry)
    (hdx : rx.date = d) (hdn : rn.date = d) (hkey : keyOf rx = keyOf rn)
    (hid : rn.id < rx.id) (h1 : qs ≤ d) (h2 : d ≤ qe) :
    fillOverseasDaysCST [rx, rn] today = {d} ∧
    (calculateOverseasDays [rx, rn] qs qe today).totalOverseasDays = 1 := by
  have hfill : fillOverseasDaysCST [rx, rn] today = {d} := by
    rw [fillOverseasDaysCST, groupByDocument_pair rx rn hkey]
    simp only [List.foldl]
    rw [sortIdDesc_pair rx rn hid, fillWalk_exit_entry rx rn today hx hn,
      hdx, hdn, Finset.Icc_self]
  refine ⟨hfill, ?_⟩
  rw [calc_total_def, hfill, countOverseas, countDaysAux_eq]
  have hfe : (Finset.Icc qs (qs + ((qe - qs + 1).toNat : ℤ) - 1)).filter
      (fun x => x ∈ ({d} : Finset ℤ)) = {d} := by
    ext x
    simp only [Finset.mem_filter, Finset.mem_Icc, Finset.mem_singleton]
    omega
  rw [hfe, Finset.card_singleton]

theorem same_day_pair_counts_one_witness :
    (mkRec 9 BorderType.exit 42 "P" "P1").type = BorderType.exit ∧
    (mkRec 5 BorderType.entry 42 "P" "P1").id <
      (mkRec 9 BorderType.exit 42 "P" "P1").id ∧
    fillOverseasDaysCST
        [mkRec 9 BorderType.exit 42 "P" "P1",
         mkRec 5 BorderType.entry 42 "P" "P1"] 1000 = {42} ∧
    (calculateOverseasDays
        [mkRec 9 BorderType.exit 42 "P" "P1",
         mkRec 5 BorderType.entry 42 "P" "P1"] 0 100 1000).totalOverseasDays
      = 1 := by
  have h := same_day_pair_counts_one
    (mkRec 9 BorderType.exit 42 "P" "P1")
    (mkRec 5 BorderType.entry 42 "P" "P1") 42 0 100 1000
    rfl rfl rfl rfl rfl (by decide) (by decide) (by decide)
  exact ⟨rfl, by decide, h.1, h.2⟩

/-! ### C6 (corrected) -/

/-- The claim "every abroad segment satisfies `exitDate ≤ entryDate`
once normalized: a reversed pair is swapped, not discarded, so it still
contributes its days" is false on the day-fill calculator: for a
document whose exit (day 10) precedes its entry (day 5) in id order,
`buildAbroadSegmentsCST` emits the un-swapped segment
`{ exit := 10, entry := 5 }` (violating `exit ≤ entry`), and the pair
contributes 0 overseas days. -/
theorem reversed_pair_segment_not_swapped :
    buildAbroadSegmentsCST cexReversedPair 100 =
      [{ exit := 10, entry := some 5 }] ∧
    ¬ ((10 : Int) ≤ 5) ∧
    (calculateOverseasDays cexReversedPair 0 100 100).totalOverseasDays
      = 0 := by
  refine ⟨by decide, by decide, ?_⟩
  rw [calc_total_def]
  have h : fillOverseasDaysCST cexReversedPair 100 = ∅ := by decide
  rw [h, countOverseas]
  exact countDaysAux_empty _ _

/-- C6 amended: the day-fill calculator's segment builder emits a raw
exit/entry pair whose entry date precedes its exit date as an
un-swapped segment with `entryDate < exitDate`; such a pair is filled
over the empty range, so it contributes zero overseas days for every
query window (rather than being swapped into a valid contributing
segment). -/
theorem reversed_pair_unswapped_contributes_nothing
    (r1 r2 : BorderRecord) (today : Int)
    (h1 : r1.type = BorderType.exit) (h2 : r2.type = BorderType.entry)
    (hdate : r2.date < r1.date) (hid : r2.id < r1.id)
    (hkey : keyOf r1 = keyOf r2) :
    buildAbroadSegmentsCST [r1, r2] today =
      [{ exit := r1.date, entry := some r2.date }] ∧
    fillOverseasDaysCST [r1, r2] today = ∅ ∧
    ∀ qs qe,
      (calculateOverseasDays [r1, r2] qs qe today).totalOverseasDays = 0 := by
  have hfill : fillOverseasDaysCST [r1, r2] today = ∅ := by
    rw [fillOverseasDaysCST, groupByDocument_pair r1 r2 hkey]
    simp only [List.foldl]
    rw [sortIdDesc_pair r1 r2 hid, fillWalk_exit_entry r1 r2 today h1 h2]
    exact Finset.Icc_eq_empty (by omega)
  refine ⟨?_, hfill, ?_⟩
  · rw [buildAbroadSegmentsCST, groupByDocument_pair r1 r2 hkey]
    simp only [List.foldl]
    rw [sortIdDesc_pair r1 r2 hid]
    simp [segWalk, h1, h2]
  · intro qs qe
    rw [calc_total_def, hfill, countOverseas]
    exact countDaysAux_empty _ _

theorem reversed_pair_unswapped_contributes_nothing_witness :
    ((mkRec 1 BorderType.entry 5 "P" "P1").date <
      (mkRec 2 BorderType.exit 10 "P" "P1").date) ∧
    buildAbroadSegmentsCST
        [mkRec 2 BorderType.exit 10 "P" "P1",
         mkRec 1 BorderType.entry 5 "P" "P1"] 100 =
      [{ exit := 10, entry := some 5 }] ∧
    fillOverseasDaysCST
        [mkRec 2 BorderType.exit 10 "P" "P1",
         mkRec 1 BorderType.entry 5 "P" "P1"] 100 = ∅ := by
  have h := reversed_pair_unswapped_contributes_nothing
    (mkRec 2 BorderType.exit 10 "P" "P1")
    (mkRec 1 BorderType.entry 5 "P" "P1") 100
    rfl rfl (by decide) (by decide) rfl
  exact ⟨by decide, h.1, h.2.1⟩

/-! ### Permutation lemmas for the stable sorts -/

theorem stableInsert_perm (after : α → α → Bool) (x : α) (l : List α) :
    (stableInsert after x l).Perm (x :: l) := by
  induction l with
  | nil => exact List.Perm.refl _
  | cons y ys ih =>
    rw [stableInsert]
    split
    · exact List.Perm.refl _
    · exact (ih.cons y).trans (List.Perm.swap x y ys)

theorem foldl_stableInsert_perm (after : α → α → Bool) :
    ∀ (l acc : List α),
      (l.foldl (fun acc x => stableInsert after x acc) acc).Perm (l ++ acc) := by
  intro l
  induction l with
  | nil => intro acc; exact List.Perm.refl _
  | cons x l ih =>
    intro acc
    rw [List.foldl_cons]
    refine ((ih _).trans ?_)
    refine (List.Perm.append_left l (stableInsert_perm after x acc)).trans ?_
    exact List.perm_middle

theorem stableSortBy_perm (after : α → α → Bool) (l : List α) :
    (stableSortBy after l).Perm l := by
  have h := foldl_stableInsert_perm after l []
  rw [List.append_nil] at h
  exact h

theorem sortRecords_perm (l : List BorderRecord) : (sortRecords l).Perm l :=
  stableSortBy_perm _ l

theorem sortById_perm (l : List BorderRecord) : (sortById l).Perm l :=
  stableSortBy_perm _ l

theorem sortIdDesc_perm (l : List BorderRecord) : (sortIdDesc l).Perm l :=
  stableSortBy_perm _ l

/-! ### Step lemmas and elementwise shape of the pairing walk -/

theorem processRecords_exit (r : BorderRecord)
    (rest stack : List BorderRecord) (hr : r.type = BorderType.exit) :
    processRecords (r :: rest) stack =
      (r :: (processRecords rest (r :: stack)).1,
       (processRecords rest (r :: stack)).2.1,
       (processRecords rest (r :: stack)).2.2) := by
  simp only [processRecords, hr]

theorem processRecords_entry_nil (r : BorderRecord)
    (rest : List BorderRecord) (hr : r.type = BorderType.entry) :
    processRecords (r :: rest) [] =
      (r :: (processRecords rest []).1,
       (processRecords rest []).2.1, (processRecords rest []).2.2) := by
  simp only [processRecords, hr]

theorem processRecords_entry_cons (r e : BorderRecord)
    (rest stack : List BorderRecord) (hr : r.type = BorderType.entry) :
    processRecords (r :: rest) (e :: stack) =
      if r.documentNumber = e.documentNumber ∧
          r.documentName = e.documentName then
        (r :: (processRecords rest stack).1,
         (processRecords rest stack).2.1, (processRecords rest stack).2.2)
      else
        ({ r with documentNumber := e.documentNumber,
                  documentName := e.documentName } ::
            (processRecords rest stack).1,
         mismatchIssue e r :: (processRecords rest stack).2.1,
         (processRecords rest stack).2.2 + 1) := by
  simp only [processRecords, hr]

theorem sameExceptDocs_refl (r : BorderRecord) : sameExceptDocs r r :=
  ⟨rfl, rfl, rfl, rfl, rfl, rfl⟩

theorem processRecords_forall2 :
    ∀ (L S : List BorderRecord),
      List.Forall₂ sameExceptDocs L (processRecords L S).1 := by
  intro L
  induction L with
  | nil => intro S; exact List.Forall₂.nil
  | cons r rest ih =>
    intro S
    cases hr : r.type with
    | exit =>
      rw [processRecords_exit r rest S hr]
      exact List.Forall₂.cons (sameExceptDocs_refl r) (ih _)
    | entry =>
      cases S with
      | nil =>
        rw [processRecords_entry_nil r rest hr]
        exact List.Forall₂.cons (sameExceptDocs_refl r) (ih _)
      | cons e stack =>
        rw [processRecords_entry_cons r e rest stack hr]
        split
        · exact List.Forall₂.cons (sameExceptDocs_refl r) (ih _)
        · exact List.Forall₂.cons ⟨rfl, rfl, rfl, rfl, rfl, rfl⟩ (ih _)

theorem forall2_map_id {l l' : List BorderRecord}
    (h : List.Forall₂ sameExceptDocs l l') :
    l'.map (fun r => r.id) = l.map (fun r => r.id) := by
  induction h with
  | nil => rfl
  | cons hr _ ih => simp [List.map_cons, ih, hr.1]

theorem forall2_perm_right {R : α → β → Prop} {a b : List β}
    (hp : a.Perm b) :
    ∀ {l : List α}, List.Forall₂ R l a →
      ∃ l', l.Perm l' ∧ List.Forall₂ R l' b := by
  induction hp with
  | nil =>
    intro l h
    cases h
    exact ⟨[], List.Perm.refl _, List.Forall₂.nil⟩
  | cons x p ih =>
    intro l h
    cases h with
    | cons hr htail =>
      obtain ⟨l', hperm, hf⟩ := ih htail
      exact ⟨_ :: l', hperm.cons _, List.Forall₂.cons hr hf⟩
  | swap x y l₀ =>
    intro l h
    cases h with
    | cons hr htail =>
      cases htail with
      | cons hr2 htail2 =>
        exact ⟨_, List.Perm.swap _ _ _, List.Forall₂.cons hr2
          (List.Forall₂.cons hr htail2)⟩
  | trans p₁ p₂ ih₁ ih₂ =>
    intro l h
    obtain ⟨l₁, hperm₁, hf₁⟩ := ih₁ h
    obtain ⟨l₂, hperm₂, hf₂⟩ := ih₂ hf₁
    exact ⟨l₂, hperm₁.trans hperm₂, hf₂⟩

/-! ### C10 -/

/-- C10: `correctDocumentMatching` drops, duplicates and fabricates
nothing: `originalRecordsCount` and the output length equal the input
length, the multiset of (numeric) record ids is preserved, and the
output records are, up to reordering, the input records with only the
document-identity fields possibly changed. -/
theorem corrected_records_frame (records : List BorderRecord) :
    (correctDocumentMatching records).originalRecordsCount =
      records.length ∧
    (correctDocumentMatching records).correctedRecords.length =
      records.length ∧
    ((correctDocumentMatching records).correctedRecords.map
        (fun r => r.id)).Perm (records.map (fun r => r.id)) ∧
    ∃ l', records.Perm l' ∧
      List.Forall₂ sameExceptDocs l'
        (correctDocumentMatching records).correctedRecords := by
  have hY : (sortRecords records).Perm records := sortRecords_perm records
  have hF : List.Forall₂ sameExceptDocs (sortRecords records)
      (processRecords (sortRecords records) []).1 :=
    processRecords_forall2 _ _
  have hS : (sortById (processRecords (sortRecords records) []).1).Perm
      (processRecords (sortRecords records) []).1 := sortById_perm _
  have hcr : (correctDocumentMatching records).correctedRecords =
      sortById (processRecords (sortRecords records) []).1 := rfl
  refine ⟨rfl, ?_, ?_, ?_⟩
  · rw [hcr, hS.length_eq, ← hF.length_eq, hY.length_eq]
  · rw [hcr]
    refine ((hS.map (fun r => r.id)).trans ?_)
    rw [forall2_map_id hF]
    exact hY.map _
  · obtain ⟨l', hperm, hfor⟩ := forall2_perm_right hS.symm hF
    exact ⟨l', hY.symm.trans hperm, hfor⟩

/-! ### Comparator algebra -/

theorem compareDateType_neg (a b : BorderRecord) :
    compareDateType a b = -compareDateType b a := by
  cases ha : a.type <;> cases hb : b.type <;>
    rw [compareDateType, compareDateType] <;>
    simp [ha, hb] <;> split_ifs <;> omega

theorem compareDateType_trans (x y z : BorderRecord)
    (h1 : compareDateType x y < 0) (h2 : compareDateType y z ≤ 0) :
    compareDateType x z < 0 := by
  cases hx : x.type <;> cases hy : y.type <;> cases hz : z.type <;>
    rw [compareDateType] at h1 h2 ⊢ <;>
    simp [hx, hy, hz] at h1 h2 ⊢ <;> split_ifs at h1 h2 ⊢ <;> omega

theorem compareIdAsc_neg (a b : BorderRecord) :
    compareIdAsc a b = -compareIdAsc b a := by
  rw [compareIdAsc, compareIdAsc]; omega

theorem compareIdAsc_trans (x y z : BorderRecord)
    (h1 : compareIdAsc x y < 0) (h2 : compareIdAsc y z ≤ 0) :
    compareIdAsc x z < 0 := by
  rw [compareIdAsc] at h1 h2 ⊢; omega

instance : IsAntisymm BorderRecord recLT := by
  constructor
  intro a b hab hba
  exfalso
  have hn := compareDateType_neg a b
  rcases hab with h | ⟨h, hid⟩ <;> rcases hba with h' | ⟨h', hid'⟩ <;> omega

/-! ### Stability: sorting a strictly pre-ordered list yields a
lexicographically strictly sorted list -/

theorem stableInsert_pairwise (cmp : α → α → Int) (R : α → α → Prop)
    (hneg : ∀ x y, cmp x y = -cmp y x)
    (htrans : ∀ x y z, cmp x y < 0 → cmp y z ≤ 0 → cmp x z < 0)
    (x : α) :
    ∀ (l : List α),
      l.Pairwise (fun a b => cmp a b < 0 ∨ (cmp a b = 0 ∧ R a b)) →
      (∀ y ∈ l, R y x) →
      (stableInsert (fun y x => decide (0 < cmp y x)) x l).Pairwise
        (fun a b => cmp a b < 0 ∨ (cmp a b = 0 ∧ R a b)) := by
  intro l
  induction l with
  | nil => intro _ _; exact List.pairwise_singleton _ _
  | cons y ys ih =>
    intro hl hRx
    rw [stableInsert]
    by_cases hyx : 0 < cmp y x
    · rw [if_pos (by simpa using hyx)]
      have hxy : cmp x y < 0 := by have := hneg x y; omega
      refine List.pairwise_cons.mpr ⟨?_, hl⟩
      intro z hz
      rcases List.mem_cons.mp hz with rfl | hz'
      · exact Or.inl hxy
      · have hyz := List.rel_of_pairwise_cons hl hz'
        have hyz' : cmp y z ≤ 0 := by rcases hyz with h | ⟨h, _⟩ <;> omega
        exact Or.inl (htrans x y z hxy hyz')
    · rw [if_neg (by simpa using hyx)]
      have hins := ih (List.Pairwise.of_cons hl)
        (fun y' hy' => hRx y' (List.mem_cons_of_mem _ hy'))
      refine List.pairwise_cons.mpr ⟨?_, hins⟩
      intro z hz
      have hz' : z ∈ x :: ys :=
        (stableInsert_perm (fun y x => decide (0 < cmp y x)) x ys).mem_iff.mp hz
      rcases List.mem_cons.mp hz' with rfl | hz''
      · rcases lt_or_eq_of_le (not_lt.mp hyx) with h | h
        · exact Or.inl h
        · exact Or.inr ⟨h, hRx y (List.mem_cons_self _ _)⟩
      · exact List.rel_of_pairwise_cons hl hz''

theorem stableSortBy_pairwise (cmp : α → α → Int) (R : α → α → Prop)
    (hneg : ∀ x y, cmp x y = -cmp y x)
    (htrans : ∀ x y z, cmp x y < 0 → cmp y z ≤ 0 → cmp x z < 0)
    (l : List α) (hl : l.Pairwise R) :
    (stableSortBy (fun y x => decide (0 < cmp y x)) l).Pairwise
      (fun a b => cmp a b < 0 ∨ (cmp a b = 0 ∧ R a b)) := by
  suffices h : ∀ (l' acc : List α), l'.Pairwise R →
      acc.Pairwise (fun a b => cmp a b < 0 ∨ (cmp a b = 0 ∧ R a b)) →
      (∀ a ∈ acc, ∀ b ∈ l', R a b) →
      (l'.foldl (fun acc x =>
          stableInsert (fun y x => decide (0 < cmp y x)) x acc) acc).Pairwise
        (fun a b => cmp a b < 0 ∨ (cmp a b = 0 ∧ R a b)) by
    exact h l [] hl List.Pairwise.nil (by simp)
  intro l'
  induction l' with
  | nil => intro acc _ hacc _; exact hacc
  | cons x l' ih =>
    intro acc hl' hacc hcross
    rw [List.foldl_cons]
    refine ih _ (List.Pairwise.of_cons hl') ?_ ?_
    · exact stableInsert_pairwise cmp R hneg htrans x acc hacc
        (fun y hy => hcross y hy x (List.mem_cons_self _ _))
    · intro a ha b hb
      rcases List.mem_cons.mp
          ((stableInsert_perm _ x acc).mem_iff.mp ha) with rfl | ha'
      · exact List.rel_of_pairwise_cons hl' hb
      · exact hcross a ha' b (List.mem_cons_of_mem _ hb)

/-! ### Transfer of order facts along `sameExceptDocs` -/

theorem forall2_mem_right {R : α → β → Prop} :
    ∀ {l₁ : List α} {l₂ : List β}, List.Forall₂ R l₁ l₂ → ∀ {b}, b ∈ l₂ →
      ∃ a ∈ l₁, R a b := by
  intro l₁ l₂ h
  induction h with
  | nil => intro b hb; cases hb
  | cons hr _ ih =>
    intro b hb
    rcases List.mem_cons.mp hb with rfl | hb'
    · exact ⟨_, List.mem_cons_self _ _, hr⟩
    · obtain ⟨a, ha, hab⟩ := ih hb'
      exact ⟨a, List.mem_cons_of_mem _ ha, hab⟩

theorem pairwise_transfer {P : BorderRecord → BorderRecord → Prop}
    (hP : ∀ a a' b b', sameExceptDocs a a' → sameExceptDocs b b' →
      P a b → P a' b') :
    ∀ {l l' : List BorderRecord}, List.Forall₂ sameExceptDocs l l' →
      l.Pairwise P → l'.Pairwise P := by
  intro l l' hf
  induction hf with
  | nil => intro _; exact List.Pairwise.nil
  | cons hr htail ih =>
    intro hp
    rcases List.pairwise_cons.mp hp with ⟨hhead, htl⟩
    refine List.pairwise_cons.mpr ⟨?_, ih htl⟩
    intro b' hb'
    obtain ⟨b, hb, hbb'⟩ := forall2_mem_right htail hb'
    exact hP _ _ _ _ hr hbb' (hhead b hb)

theorem compareDateType_congr {a a' b b' : BorderRecord}
    (ha : sameExceptDocs a a') (hb : sameExceptDocs b b') :
    compareDateType a' b' = compareDateType a b := by
  simp only [compareDateType, ha.2.1, ha.2.2.1, hb.2.1, hb.2.2.1]

/-! ### The pairing walk fixes its own output -/

theorem processRecords_fixed :
    ∀ (L S : List BorderRecord),
      processRecords (processRecords L S).1 S =
        ((processRecords L S).1, [], 0) := by
  intro L
  induction L with
  | nil => intro S; rfl
  | cons r rest ih =>
    intro S
    cases hr : r.type with
    | exit =>
      rw [processRecords_exit r rest S hr, processRecords_exit r _ S hr,
        ih (r :: S)]
    | entry =>
      cases S with
      | nil =>
        rw [processRecords_entry_nil r rest hr,
          processRecords_entry_nil r _ hr, ih []]
      | cons e stack =>
        rw [processRecords_entry_cons r e rest stack hr]
        by_cases hc : r.documentNumber = e.documentNumber ∧
            r.documentName = e.documentName
        · rw [if_pos hc, processRecords_entry_cons r e _ stack hr,
            if_pos hc, ih stack]
        · rw [if_neg hc,
            processRecords_entry_cons
              { r with documentNumber := e.documentNumber,
                       documentName := e.documentName } e _ stack hr,
            if_pos ⟨rfl, rfl⟩, ih stack]

theorem detect_all_same_day (recs : List BorderRecord) :
    ∀ i ∈ detectSameDayMultiple recs,
      i.type = IssueType.same_day_multiple := by
  intro i hi
  simp only [detectSameDayMultiple, List.mem_map] at hi
  obtain ⟨q, _, rfl⟩ := hi
  rfl

/-! ### C4 (corrected) -/

/-- The idempotence claim is false as stated: for the four-record input
`cexReorderedIds` the first correction pass reports zero corrections,
yet feeding its `correctedRecords` back through
`correctDocumentMatching` yields `correctedCount = 2` and two
`document_mismatch` issues (the id re-sort between the passes changes
which same-day exit each entry pops). -/
theorem correction_second_pass_not_zero :
    (correctDocumentMatching cexReorderedIds).correctedCount = 0 ∧
    (correctDocumentMatching
        (correctDocumentMatching cexReorderedIds).correctedRecords
      ).correctedCount = 2 ∧
    ((correctDocumentMatching
        (correctDocumentMatching cexReorderedIds).correctedRecords
      ).issues.countP
        (fun i => i.type = IssueType.document_mismatch)) = 2 := by
  refine ⟨by decide, by decide, by decide⟩

/-- C4 amended: for every input list already in the output ordering
convention (strictly ascending numeric ids), feeding the
`correctedRecords` output of `correctDocumentMatching` back through
`correctDocumentMatching` yields `correctedCount = 0` and no
`document_mismatch` issue: already-corrected data in id order is a
fixed point of the correction pass. -/
theorem correction_idempotent_on_id_sorted (records : List BorderRecord)
    (h : records.Pairwise (fun a b => a.id < b.id)) :
    (correctDocumentMatching
        (correctDocumentMatching records).correctedRecords
      ).correctedCount = 0 ∧
    ∀ i ∈ (correctDocumentMatching
        (correctDocumentMatching records).correctedRecords).issues,
      i.type ≠ IssueType.document_mismatch := by
  have hPY : (sortRecords records).Pairwise recLT :=
    stableSortBy_pairwise compareDateType (fun a b => a.id < b.id)
      compareDateType_neg compareDateType_trans records h
  have hFT : List.Forall₂ sameExceptDocs (sortRecords records)
      (processRecords (sortRecords records) []).1 :=
    processRecords_forall2 _ _
  have hPT : (processRecords (sortRecords records) []).1.Pairwise recLT := by
    refine pairwise_transfer ?_ hFT hPY
    intro a a' b b' ha hb hab
    rcases hab with h1 | ⟨h1, h2⟩
    · exact Or.inl (by rw [compareDateType_congr ha hb]; exact h1)
    · exact Or.inr ⟨by rw [compareDateType_congr ha hb]; exact h1,
        by rw [ha.1, hb.1]; exact h2⟩
  have hidsrec : records.Pairwise (fun a b => a.id ≠ b.id) :=
    h.imp (fun hab => ne_of_lt hab)
  have hidsY : (sortRecords records).Pairwise (fun a b => a.id ≠ b.id) :=
    ((sortRecords_perm records).pairwise_iff
      (fun {x y} hab => Ne.symm hab)).mpr hidsrec
  have hidsT : (processRecords (sortRecords records) []).1.Pairwise
      (fun a b => a.id ≠ b.id) := by
    refine pairwise_transfer ?_ hFT hidsY
    intro a a' b b' ha hb hab
    rw [ha.1, hb.1]; exact hab
  have hO2P : (sortById (processRecords (sortRecords records) []).1).Pairwise
      (fun a b => a.id < b.id) := by
    have := stableSortBy_pairwise compareIdAsc (fun a b => a.id ≠ b.id)
      compareIdAsc_neg compareIdAsc_trans _ hidsT
    refine this.imp ?_
    intro a b hab
    rcases hab with h1 | ⟨h1, h2⟩ <;> rw [compareIdAsc] at * <;> omega
  have hsorted2 : (sortRecords
      (sortById (processRecords (sortRecords records) []).1)).Pairwise
        recLT :=
    stableSortBy_pairwise compareDateType (fun a b => a.id < b.id)
      compareDateType_neg compareDateType_trans _ hO2P
  have hperm : (sortRecords
      (sortById (processRecords (sortRecords records) []).1)).Perm
        (processRecords (sortRecords records) []).1 :=
    (sortRecords_perm _).trans (sortById_perm _)
  have heq : sortRecords
      (sortById (processRecords (sortRecords records) []).1) =
        (processRecords (sortRecords records) []).1 :=
    List.eq_of_perm_of_sorted hperm hsorted2 hPT
  have hcr : (correctDocumentMatching records).correctedRecords =
      sortById (processRecords (sortRecords records) []).1 := rfl
  have hfix := processRecords_fixed (sortRecords records) []
  constructor
  · show (processRecords (sortRecords
        (sortById (processRecords (sortRecords records) []).1)) []).2.2 = 0
    rw [heq, hfix]
  · intro i hi
    have hiss : (correctDocumentMatching
        (correctDocumentMatching records).correctedRecords).issues =
        (processRecords (sortRecords
          (sortById (processRecords (sortRecords records) []).1)) []).2.1 ++
        detectSameDayMultiple
          (processRecords (sortRecords
            (sortById (processRecords (sortRecords records) []).1)) []).1 :=
      rfl
    rw [hiss, heq, hfix] at hi
    simp only [List.nil_append] at hi
    rw [detect_all_same_day _ i hi]
    intro hcontra
    cases hcontra

theorem correction_idempotent_on_id_sorted_witness :
    ([mkRec 1 BorderType.exit 1 "P" "P1",
      mkRec 2 BorderType.entry 2 "H" "H1"] :
        List BorderRecord).Pairwise (fun a b => a.id < b.id) ∧
    (correctDocumentMatching
        (correctDocumentMatching
          [mkRec 1 BorderType.exit 1 "P" "P1",
           mkRec 2 BorderType.entry 2 "H" "H1"]).correctedRecords
      ).correctedCount = 0 := by
  refine ⟨by decide, ?_⟩
  exact (correction_idempotent_on_id_sorted
    [mkRec 1 BorderType.exit 1 "P" "P1",
     mkRec 2 BorderType.entry 2 "H" "H1"] (by decide)).1

/-! ### Characterization of the insertion-ordered grouping folds -/

theorem lookupG_upsert_same [DecidableEq κ] (m : List (κ × List α))
    (k : κ) (x : α) :
    lookupG k (upsertGroup m k x) = lookupG k m ++ [x] := by
  induction m with
  | nil => simp [upsertGroup, lookupG]
  | cons p rest ih =>
    obtain ⟨k', g⟩ := p
    by_cases hk : k' = k
    · simp [upsertGroup, lookupG, hk]
    · simp [upsertGroup, lookupG, hk, ih]

theorem lookupG_upsert_other [DecidableEq κ] (m : List (κ × List α))
    (k k₂ : κ) (x : α) (h : k₂ ≠ k) :
    lookupG k₂ (upsertGroup m k x) = lookupG k₂ m := by
  have hne : ¬ k = k₂ := fun hh => h hh.symm
  induction m with
  | nil => simp [upsertGroup, lookupG, hne]
  | cons p rest ih =>
    obtain ⟨k', g⟩ := p
    by_cases hk : k' = k
    · subst hk
      simp only [upsertGroup, if_pos rfl, lookupG]
      rw [if_neg hne, if_neg hne]
    · simp only [upsertGroup, if_neg hk, lookupG]
      by_cases hk2 : k' = k₂
      · rw [if_pos hk2, if_pos hk2]
      · rw [if_neg hk2, if_neg hk2, ih]

theorem upsert_keys_mem [DecidableEq κ] (m : List (κ × List α))
    (k k₂ : κ) (x : α) :
    k₂ ∈ (upsertGroup m k x).map Prod.fst ↔
      k₂ ∈ m.map Prod.fst ∨ k₂ = k := by
  induction m with
  | nil => simp [upsertGroup]
  | cons p rest ih =>
    obtain ⟨k', g⟩ := p
    by_cases hk : k' = k
    · subst hk
      simp only [upsertGroup, if_true, List.map_cons, List.mem_cons]
      tauto
    · simp only [upsertGroup]
      rw [if_neg hk]
      simp only [List.map_cons, List.mem_cons, ih]
      tauto

theorem upsert_keys_nodup [DecidableEq κ] (m : List (κ × List α))
    (k : κ) (x : α) (h : (m.map Prod.fst).Nodup) :
    ((upsertGroup m k x).map Prod.fst).Nodup := by
  induction m with
  | nil => simp [upsertGroup]
  | cons p rest ih =>
    obtain ⟨k', g⟩ := p
    rcases List.nodup_cons.mp h with ⟨hk', hrest⟩
    by_cases hk : k' = k
    · subst hk
      simp only [upsertGroup, if_pos rfl, List.map_cons]
      exact List.nodup_cons.mpr ⟨hk', hrest⟩
    · simp only [upsertGroup, if_neg hk, List.map_cons]
      refine List.nodup_cons.mpr ⟨?_, ih hrest⟩
      intro hmem
      rcases (upsert_keys_mem rest k k' x).mp hmem with h1 | h1
      · exact hk' h1
      · exact hk h1

theorem fold_group_lookup [DecidableEq κ] (f : α → κ) :
    ∀ (l : List α) (m : List (κ × List α)) (k : κ),
      lookupG k (l.foldl (fun m x => upsertGroup m (f x) x) m) =
        lookupG k m ++ l.filter (fun x => decide (f x = k)) := by
  intro l
  induction l with
  | nil => intro m k; simp
  | cons x l ih =>
    intro m k
    rw [List.foldl_cons, ih, List.filter_cons]
    by_cases hx : f x = k
    · rw [← hx, lookupG_upsert_same]
      simp [hx]
    · rw [lookupG_upsert_other m (f x) k x (fun hh => hx hh.symm)]
      simp [hx]

theorem fold_group_keys_nodup [DecidableEq κ] (f : α → κ) :
    ∀ (l : List α) (m : List (κ × List α)),
      (m.map Prod.fst).Nodup →
      (((l.foldl (fun m x => upsertGroup m (f x) x) m)).map Prod.fst).Nodup := by
  intro l
  induction l with
  | nil => intro m h; exact h
  | cons x l ih =>
    intro m h
    rw [List.foldl_cons]
    exact ih _ (upsert_keys_nodup m (f x) x h)

theorem fold_group_keys_mem [DecidableEq κ] (f : α → κ) :
    ∀ (l : List α) (m : List (κ × List α)) (k : κ),
      (k ∈ ((l.foldl (fun m x => upsertGroup m (f x) x) m)).map Prod.fst ↔
        k ∈ m.map Prod.fst ∨ ∃ x ∈ l, f x = k) := by
  intro l
  induction l with
  | nil => intro m k; simp
  | cons x l ih =>
    intro m k
    rw [List.foldl_cons, ih, upsert_keys_mem]
    simp only [List.mem_cons]
    constructor
    · rintro ((h | h) | ⟨x', hx', hfx⟩)
      · exact Or.inl h
      · exact Or.inr ⟨x, Or.inl rfl, h.symm⟩
      · exact Or.inr ⟨x', Or.inr hx', hfx⟩
    · rintro (h | ⟨x', hx' | hx', hfx⟩)
      · exact Or.inl (Or.inl h)
      · subst hx'; exact Or.inl (Or.inr hfx.symm)
      · exact Or.inr ⟨x', hx', hfx⟩

theorem mem_iff_lookupG [DecidableEq κ] :
    ∀ (m : List (κ × List α)), (m.map Prod.fst).Nodup →
      ∀ (p : κ × List α),
        (p ∈ m ↔ p.1 ∈ m.map Prod.fst ∧ lookupG p.1 m = p.2) := by
  intro m
  induction m with
  | nil => intro _ p; simp [lookupG]
  | cons q rest ih =>
    intro hnd p
    obtain ⟨k', g⟩ := q
    rcases List.nodup_cons.mp hnd with ⟨hk', hrest⟩
    simp only [List.mem_cons, List.map_cons]
    constructor
    · rintro (rfl | hp)
      · simp [lookupG]

      · rcases (ih hrest p).mp hp with ⟨hmem, hlook⟩
        have hne : ¬ k' = p.1 := by
          intro hh
          exact hk' (hh ▸ hmem)
        refine ⟨Or.inr hmem, ?_⟩
        rw [lookupG, if_neg hne]
        exact hlook
    · rintro ⟨hmem, hlook⟩
      rcases hmem with heq | hmem'
      · left
        rw [lookupG, if_pos heq.symm] at hlook
        obtain ⟨p1, p2⟩ := p
        simp only at heq hlook
        rw [heq, hlook]
      · right
        have hne : ¬ k' = p.1 := by
          intro hh
          exact hk' (hh ▸ hmem')
        rw [lookupG, if_neg hne] at hlook
        exact (ih hrest p).mpr ⟨hmem', hlook⟩

/-- Every group of `groupByDocument` is exactly the input filtered to
its key. -/
theorem groupByDocument_mem (records : List BorderRecord)
    (p : String × List BorderRecord) (hp : p ∈ groupByDocument records) :
    p.2 = records.filter (fun r => decide (keyOf r = p.1)) := by
  have hnd : ((groupByDocument records).map Prod.fst).Nodup :=
    fold_group_keys_nodup keyOf records [] (by simp)
  have h := (mem_iff_lookupG (groupByDocument records) hnd p).mp hp
  have hl := fold_group_lookup keyOf records [] p.1
  rw [groupByDocument] at h
  rw [h.2.symm, hl]
  simp [lookupG]

theorem groupByDocument_keys_nodup (records : List BorderRecord) :
    ((groupByDocument records).map Prod.fst).Nodup :=
  fold_group_keys_nodup keyOf records [] (by simp)

theorem groupByDocument_key_mem (records : List BorderRecord) (k : String) :
    k ∈ (groupByDocument records).map Prod.fst ↔
      ∃ r ∈ records, keyOf r = k := by
  have := fold_group_keys_mem keyOf records [] k
  rw [groupByDocument]
  simpa using this

theorem groupByDate_mem (records : List BorderRecord)
    (p : Int × List BorderRecord) (hp : p ∈ groupByDate records) :
    p.2 = records.filter (fun r => decide (r.date = p.1)) := by
  have hnd : ((groupByDate records).map Prod.fst).Nodup :=
    fold_group_keys_nodup (fun r : BorderRecord => r.date) records [] (by simp)
  have h := (mem_iff_lookupG (groupByDate records) hnd p).mp hp
  have hl := fold_group_lookup (fun r : BorderRecord => r.date) records [] p.1
  rw [groupByDate] at h
  rw [h.2.symm, hl]
  simp [lookupG]

theorem groupByDate_keys_nodup (records : List BorderRecord) :
    ((groupByDate records).map Prod.fst).Nodup :=
  fold_group_keys_nodup (fun r : BorderRecord => r.date) records [] (by simp)

theorem groupByDate_key_mem (records : List BorderRecord) (dt : Int) :
    dt ∈ (groupByDate records).map Prod.fst ↔
      ∃ r ∈ records, r.date = dt := by
  have := fold_group_keys_mem (fun r : BorderRecord => r.date) records [] dt
  rw [groupByDate]
  simpa using this

theorem mem_of_mem_groupByDocument (records : List BorderRecord)
    (p : String × List BorderRecord) (hp : p ∈ groupByDocument records)
    (r : BorderRecord) (hr : r ∈ p.2) :
    r ∈ records ∧ keyOf r = p.1 := by
  rw [groupByDocument_mem records p hp] at hr
  rcases List.mem_filter.mp hr with ⟨h1, h2⟩
  exact ⟨h1, of_decide_eq_true h2⟩

/-! ### Counting helpers for the same-day anomaly issues -/

theorem processRecords_issues_mismatch :
    ∀ (L S : List BorderRecord), ∀ i ∈ (processRecords L S).2.1,
      i.type = IssueType.document_mismatch := by
  intro L
  induction L with
  | nil => intro S i hi; cases hi
  | cons r rest ih =>
    intro S i hi
    cases hr : r.type with
    | exit =>
      rw [processRecords_exit r rest S hr] at hi
      exact ih _ i hi
    | entry =>
      cases S with
      | nil =>
        rw [processRecords_entry_nil r rest hr] at hi
        exact ih _ i hi
      | cons e stack =>
        rw [processRecords_entry_cons r e rest stack hr] at hi
        by_cases hc : r.documentNumber = e.documentNumber ∧
            r.documentName = e.documentName
        · rw [if_pos hc] at hi
          exact ih _ i hi
        · rw [if_neg hc] at hi
          rcases List.mem_cons.mp hi with rfl | hi'
          · rfl
          · exact ih _ i hi'

theorem countP_flatMap (pb : β → Bool) (g : α → List β) :
    ∀ (l : List α),
      (l.flatMap g).countP pb = (l.map (fun a => (g a).countP pb)).sum := by
  intro l
  induction l with
  | nil => simp
  | cons a l ih => simp [List.flatMap_cons, List.countP_append, ih]

theorem sum_map_eq_one_of_unique {f : α → ℕ} {g : α → κ} :
    ∀ (l : List α), (l.map g).Nodup → ∀ a₀ ∈ l, f a₀ = 1 →
      (∀ a ∈ l, g a ≠ g a₀ → f a = 0) → (l.map f).sum = 1 := by
  intro l
  induction l with
  | nil => intro _ a₀ ha₀; cases ha₀
  | cons a l ih =>
    intro hnd a₀ ha₀ h1 h0
    rw [List.map_cons] at hnd
    rcases List.nodup_cons.mp hnd with ⟨hga, hgl⟩
    by_cases hg : g a = g a₀
    · have ha : a₀ = a := by
        rcases List.mem_cons.mp ha₀ with rfl | hmem
        · rfl
        · exact absurd (hg ▸ List.mem_map_of_mem g hmem) hga
      subst ha
      rw [List.map_cons, List.sum_cons, h1]
      have hz : (l.map f).sum = 0 := by
        apply List.sum_eq_zero
        intro x hx
        rcases List.mem_map.mp hx with ⟨b, hb, rfl⟩
        exact h0 b (List.mem_cons_of_mem _ hb)
          (fun hh => hga (hh ▸ List.mem_map_of_mem g hb))
      omega
    · have ha₀' : a₀ ∈ l := by
        rcases List.mem_cons.mp ha₀ with rfl | hmem
        · exact absurd rfl hg
        · exact hmem
      rw [List.map_cons, List.sum_cons,
        h0 a (List.mem_cons_self _ _) hg,
        ih hgl a₀ ha₀' h1
          (fun b hb => h0 b (List.mem_cons_of_mem _ hb))]

theorem countP_key_unique [DecidableEq κ] {g : α → κ} :
    ∀ (l : List α), (l.map g).Nodup → ∀ a₀ ∈ l,
      l.countP (fun a => decide (g a = g a₀)) = 1 := by
  intro l
  induction l with
  | nil => intro _ a₀ ha₀; cases ha₀
  | cons a l ih =>
    intro hnd a₀ ha₀
    rw [List.map_cons] at hnd
    rcases List.nodup_cons.mp hnd with ⟨hga, hgl⟩
    by_cases hg : g a = g a₀
    · have ha : a₀ = a := by
        rcases List.mem_cons.mp ha₀ with rfl | hmem
        · rfl
        · exact absurd (hg ▸ List.mem_map_of_mem g hmem) hga
      subst ha
      rw [List.countP_cons_of_pos _ _ (by simpa using hg)]
      have hz : l.countP (fun a => decide (g a = g a₀)) = 0 :=
        List.countP_eq_zero.mpr (fun b hb hgb => by
          exact hga ((of_decide_eq_true hgb) ▸ List.mem_map_of_mem g hb))
      omega
    · have ha₀' : a₀ ∈ l := by
        rcases List.mem_cons.mp ha₀ with rfl | hmem
        · exact absurd rfl hg
        · exact hmem
      rw [List.countP_cons_of_neg _ _ (by simpa using hg)]
      exact ih hgl a₀ ha₀'


theorem countP_detect_shape (cell : List BorderRecord)
    (cells : List (Int × List BorderRecord)) :
    cells.countP ((fun i =>
        decide (i.type = IssueType.same_day_multiple ∧
          i.severity = Severity.info ∧
          i.recordIds = cell.map (fun r => r.id))) ∘
      (fun q => sameDayIssue q.1 q.2)) =
    cells.countP (fun q =>
      decide (q.2.map (fun r => r.id) = cell.map (fun r => r.id))) :=
  List.countP_congr (by
    intro q hq
    simp [sameDayIssue])

theorem detect_countP (C : List BorderRecord)
    (hidsC : (C.map (fun r => r.id)).Nodup) (k : String) (dt : Int) :
    (detectSameDayMultiple C).countP
        (fun i => decide (i.type = IssueType.same_day_multiple ∧
          i.severity = Severity.info ∧
          i.recordIds = (C.filter
            (fun r => decide (keyOf r = k ∧ r.date = dt))).map
              (fun r => r.id))) =
      if 2 < (C.filter
          (fun r => decide (keyOf r = k ∧ r.date = dt))).length
      then 1 else 0 := by
  set cell := C.filter (fun r => decide (keyOf r = k ∧ r.date = dt))
    with hcell
  have cell_sub : ∀ r ∈ cell, r ∈ C ∧ keyOf r = k ∧ r.date = dt := by
    intro r hr
    rw [hcell] at hr
    rcases List.mem_filter.mp hr with ⟨h1, h2⟩
    have h3 := of_decide_eq_true h2
    exact ⟨h1, h3.1, h3.2⟩
  rw [detectSameDayMultiple, List.countP_map, countP_detect_shape]
  by_cases hlen : 2 < cell.length
  · rw [if_pos hlen]
    have hr0ex : ∃ r0, r0 ∈ cell := by
      apply List.exists_mem_of_ne_nil
      intro hnil
      rw [hnil] at hlen
      simp at hlen
    obtain ⟨r0, hr0⟩ := hr0ex
    obtain ⟨hr0C, hr0k, hr0d⟩ := cell_sub r0 hr0
    have hk : k ∈ (groupByDocument C).map Prod.fst :=
      (groupByDocument_key_mem C k).mpr ⟨r0, hr0C, hr0k⟩
    rcases List.mem_map.mp hk with ⟨p₀, hp₀, hp₀k⟩
    have hp₀2 : p₀.2 = C.filter (fun r => decide (keyOf r = k)) := by
      rw [groupByDocument_mem C p₀ hp₀, hp₀k]
    have hcellp : p₀.2.filter (fun r => decide (r.date = dt)) = cell := by
      rw [hp₀2, List.filter_filter, hcell]
      apply List.filter_congr
      intro r hr
      by_cases h1 : r.date = dt <;> by_cases h2 : keyOf r = k <;>
        simp [h1, h2]
    have hmemp2 : ∀ r ∈ p₀.2, r ∈ C ∧ keyOf r = k := by
      intro r hr
      rw [hp₀2] at hr
      rcases List.mem_filter.mp hr with ⟨h1, h2⟩
      exact ⟨h1, of_decide_eq_true h2⟩
    have hr0p : r0 ∈ p₀.2 := by
      rw [← hcellp] at hr0
      exact (List.mem_filter.mp hr0).1
    have hdt : dt ∈ (groupByDate p₀.2).map Prod.fst :=
      (groupByDate_key_mem p₀.2 dt).mpr ⟨r0, hr0p, hr0d⟩
    rcases List.mem_map.mp hdt with ⟨q₀, hq₀, hq₀dt⟩
    have hq₀2 : q₀.2 = cell := by
      rw [groupByDate_mem p₀.2 q₀ hq₀, hq₀dt, hcellp]
    have hq₀d : q₀ ∈ (groupByDate p₀.2).filter
        (fun q => decide (2 < q.2.length)) := by
      refine List.mem_filter.mpr ⟨hq₀, ?_⟩
      rw [decide_eq_true_eq, hq₀2]
      exact hlen
    have hnodupd : (((groupByDate p₀.2).filter
        (fun q => decide (2 < q.2.length))).map Prod.fst).Nodup :=
      List.Nodup.sublist
        (List.Sublist.map Prod.fst (List.filter_sublist _))
        (groupByDate_keys_nodup p₀.2)
    have hinner1 : ((groupByDate p₀.2).filter
        (fun q => decide (2 < q.2.length))).countP
          (fun q => decide (q.2.map (fun r => r.id) =
            cell.map (fun r => r.id))) = 1 := by
      have hiffdt : ∀ q ∈ (groupByDate p₀.2).filter
          (fun q => decide (2 < q.2.length)),
          ((fun q => decide (q.2.map (fun r => r.id) =
            cell.map (fun r => r.id))) q = true ↔
           (fun q => decide (q.1 = q₀.1)) q = true) := by
        intro q hq
        rcases List.mem_filter.mp hq with ⟨hqd, hq2⟩
        have h2q : 2 < q.2.length := of_decide_eq_true hq2
        simp only [decide_eq_true_eq]
        constructor
        · intro hpq
          have hne : q.2 ≠ [] := by
            intro hnil
            rw [hnil] at h2q
            simp at h2q
          obtain ⟨r, hr⟩ := List.exists_mem_of_ne_nil q.2 hne
          have hrp : r ∈ p₀.2 ∧ r.date = q.1 := by
            rw [groupByDate_mem p₀.2 q hqd] at hr
            rcases List.mem_filter.mp hr with ⟨h1, h2⟩
            exact ⟨h1, of_decide_eq_true h2⟩
          have hrC : r ∈ C := (hmemp2 r hrp.1).1
          have hrid : r.id ∈ cell.map (fun r => r.id) := by
            rw [← hpq]
            exact List.mem_map_of_mem _ hr
          rcases List.mem_map.mp hrid with ⟨r', hr', hid⟩
          have hr'C : r' ∈ C := (cell_sub r' hr').1
          have hrr' : r' = r :=
            List.inj_on_of_nodup_map hidsC hr'C hrC hid
          have hr'd : r'.date = dt := (cell_sub r' hr').2.2
          rw [hq₀dt, ← hr'd, hrr', hrp.2]
        · intro hq1
          rw [groupByDate_mem p₀.2 q hqd, hq1, hq₀dt, hcellp]
      rw [List.countP_congr hiffdt]
      exact countP_key_unique (g := Prod.fst) _ hnodupd q₀ hq₀d
    have hinner0 : ∀ pp ∈ groupByDocument C, pp.1 ≠ p₀.1 →
        ((groupByDate pp.2).filter
          (fun q => decide (2 < q.2.length))).countP
            (fun q => decide (q.2.map (fun r => r.id) =
              cell.map (fun r => r.id))) = 0 := by
      intro pp hpp hne
      apply List.countP_eq_zero.mpr
      intro q hq hpq
      rcases List.mem_filter.mp hq with ⟨hqd, hq2⟩
      have h2q : 2 < q.2.length := of_decide_eq_true hq2
      have hpq' : q.2.map (fun r => r.id) = cell.map (fun r => r.id) :=
        of_decide_eq_true hpq
      have hnen : q.2 ≠ [] := by
        intro hnil
        rw [hnil] at h2q
        simp at h2q
      obtain ⟨r, hr⟩ := List.exists_mem_of_ne_nil q.2 hnen
      have hrpp : r ∈ pp.2 := by
        rw [groupByDate_mem pp.2 q hqd] at hr
        exact (List.mem_filter.mp hr).1
      obtain ⟨hrC, hrk⟩ := mem_of_mem_groupByDocument C pp hpp r hrpp
      have hrid : r.id ∈ cell.map (fun r => r.id) := by
        rw [← hpq']
        exact List.mem_map_of_mem _ hr
      rcases List.mem_map.mp hrid with ⟨r', hr', hid⟩
      have hr'C : r' ∈ C := (cell_sub r' hr').1
      have hrr' : r' = r :=
        List.inj_on_of_nodup_map hidsC hr'C hrC hid
      have hr'k : keyOf r' = k := (cell_sub r' hr').2.1
      apply hne
      rw [hp₀k, ← hrk, ← hrr', hr'k]
    rw [countP_flatMap]
    exact sum_map_eq_one_of_unique (g := Prod.fst)
      (groupByDocument C) (groupByDocument_keys_nodup C) p₀ hp₀
      hinner1 hinner0
  · rw [if_neg hlen]
    apply List.countP_eq_zero.mpr
    intro q hq hpq
    rcases List.mem_flatMap.mp hq with ⟨pp, _, hqf⟩
    rcases List.mem_filter.mp hqf with ⟨_, hq2⟩
    have h2q : 2 < q.2.length := of_decide_eq_true hq2
    have hpq' : q.2.map (fun r => r.id) = cell.map (fun r => r.id) :=
      of_decide_eq_true hpq
    have hlq : q.2.length = cell.length := by
      have := congrArg List.length hpq'
      simpa using this
    omega

/-! ### C7 -/

/-- C7: for every document-identity key and every date, with distinct
record ids, `correctDocumentMatching` emits exactly one
`same_day_multiple` issue at `info` severity listing the ids of that
identity's (corrected) events on that date when strictly more than 2 of
them share the date, and no such issue when 2 or fewer do. -/
theorem same_day_multiple_exactly_when_over_two
    (records : List BorderRecord)
    (hids : (records.map (fun r => r.id)).Nodup) (k : String) (dt : Int) :
    (correctDocumentMatching records).issues.countP
        (fun i => decide (i.type = IssueType.same_day_multiple ∧
          i.severity = Severity.info ∧
          i.recordIds = ((pairingPhase records).1.filter
            (fun r => decide (keyOf r = k ∧ r.date = dt))).map
              (fun r => r.id))) =
      if 2 < ((pairingPhase records).1.filter
          (fun r => decide (keyOf r = k ∧ r.date = dt))).length
      then 1 else 0 := by
  have hidsC : ((pairingPhase records).1.map (fun r => r.id)).Nodup := by
    have h1 : List.Forall₂ sameExceptDocs (sortRecords records)
        (pairingPhase records).1 := processRecords_forall2 _ _
    rw [forall2_map_id h1]
    exact ((sortRecords_perm records).map (fun r => r.id)).nodup_iff.mpr hids
  have hsplit : (correctDocumentMatching records).issues =
      (pairingPhase records).2.1 ++
        detectSameDayMultiple (pairingPhase records).1 := rfl
  rw [hsplit, List.countP_append]
  have hmz : ((pairingPhase records).2.1).countP
      (fun i => decide (i.type = IssueType.same_day_multiple ∧
        i.severity = Severity.info ∧
        i.recordIds = ((pairingPhase records).1.filter
          (fun r => decide (keyOf r = k ∧ r.date = dt))).map
            (fun r => r.id))) = 0 := by
    apply List.countP_eq_zero.mpr
    intro i hi hpi
    have ht := processRecords_issues_mismatch (sortRecords records) [] i hi
    have hconj := (of_decide_eq_true hpi).1
    rw [ht] at hconj
    simp at hconj
  rw [hmz, Nat.zero_add]
  exact detect_countP (pairingPhase records).1 hidsC k dt

theorem same_day_multiple_exactly_when_over_two_witness :
    ((List.map (fun r => r.id)
        [mkRec 1 BorderType.exit 1 "P" "P1",
         mkRec 2 BorderType.entry 1 "P" "P1",
         mkRec 3 BorderType.exit 1 "P" "P1",
         mkRec 4 BorderType.entry 1 "P" "P1"]).Nodup) ∧
    (correctDocumentMatching
        [mkRec 1 BorderType.exit 1 "P" "P1",
         mkRec 2 BorderType.entry 1 "P" "P1",
         mkRec 3 BorderType.exit 1 "P" "P1",
         mkRec 4 BorderType.entry 1 "P" "P1"]).issues.countP
        (fun i => decide (i.type = IssueType.same_day_multiple ∧
          i.severity = Severity.info ∧
          i.recordIds = ((pairingPhase
              [mkRec 1 BorderType.exit 1 "P" "P1",
               mkRec 2 BorderType.entry 1 "P" "P1",
               mkRec 3 BorderType.exit 1 "P" "P1",
               mkRec 4 BorderType.entry 1 "P" "P1"]).1.filter
            (fun r => decide (keyOf r = "P1__P" ∧ r.date = 1))).map
              (fun r => r.id))) = 1 := by
  refine ⟨by decide, ?_⟩
  rw [same_day_multiple_exactly_when_over_two
    [mkRec 1 BorderType.exit 1 "P" "P1",
     mkRec 2 BorderType.entry 1 "P" "P1",
     mkRec 3 BorderType.exit 1 "P" "P1",
     mkRec 4 BorderType.entry 1 "P" "P1"] (by decide) "P1__P" 1]
  decide

/-! ### The `time` field is never read (strip commutations) -/

@[simp] theorem stripTime_id (r : BorderRecord) :
    (stripTime r).id = r.id := rfl

@[simp] theorem stripTime_type (r : BorderRecord) :
    (stripTime r).type = r.type := rfl

@[simp] theorem stripTime_date (r : BorderRecord) :
    (stripTime r).date = r.date := rfl

@[simp] theorem stripTime_documentName (r : BorderRecord) :
    (stripTime r).documentName = r.documentName := rfl

@[simp] theorem stripTime_documentNumber (r : BorderRecord) :
    (stripTime r).documentNumber = r.documentNumber := rfl

@[simp] theorem stripTime_keyOf (r : BorderRecord) :
    keyOf (stripTime r) = keyOf r := rfl

theorem stableInsert_strip (after : BorderRecord → BorderRecord → Bool)
    (hafter : ∀ a b, after (stripTime a) (stripTime b) = after a b)
    (x : BorderRecord) :
    ∀ (l : List BorderRecord),
      stableInsert after (stripTime x) (l.map stripTime) =
        (stableInsert after x l).map stripTime := by
  intro l
  induction l with
  | nil => rfl
  | cons y ys ih =>
    rw [List.map_cons, stableInsert, stableInsert, hafter]
    by_cases hc : after y x = true
    · rw [if_pos hc, if_pos hc, List.map_cons, List.map_cons]
    · rw [if_neg hc, if_neg hc, List.map_cons, ih]

theorem stableSortBy_strip (after : BorderRecord → BorderRecord → Bool)
    (hafter : ∀ a b, after (stripTime a) (stripTime b) = after a b) :
    ∀ (l acc : List BorderRecord),
      (l.map stripTime).foldl
          (fun acc x => stableInsert after x acc) (acc.map stripTime) =
        (l.foldl (fun acc x => stableInsert after x acc) acc).map
          stripTime := by
  intro l
  induction l with
  | nil => intro acc; rfl
  | cons x l ih =>
    intro acc
    rw [List.map_cons, List.foldl_cons, List.foldl_cons,
      stableInsert_strip after hafter x acc, ih]

theorem sortRecords_strip (l : List BorderRecord) :
    sortRecords (l.map stripTime) = (sortRecords l).map stripTime := by
  have h := stableSortBy_strip
    (fun y x => decide (0 < compareDateType y x)) (fun a b => rfl) l []
  exact h

theorem sortById_strip (l : List BorderRecord) :
    sortById (l.map stripTime) = (sortById l).map stripTime := by
  have h := stableSortBy_strip
    (fun y x => decide (0 < compareIdAsc y x)) (fun a b => rfl) l []
  exact h

theorem sortIdDesc_strip (l : List BorderRecord) :
    sortIdDesc (l.map stripTime) = (sortIdDesc l).map stripTime := by
  have h := stableSortBy_strip
    (fun y x => decide (0 < compareIdDesc y x)) (fun a b => rfl) l []
  exact h

theorem processRecords_strip :
    ∀ (L S : List BorderRecord),
      processRecords (L.map stripTime) (S.map stripTime) =
        ((processRecords L S).1.map stripTime,
         (processRecords L S).2.1, (processRecords L S).2.2) := by
  intro L
  induction L with
  | nil => intro S; rfl
  | cons r rest ih =>
    intro S
    rw [List.map_cons]
    cases hr : r.type with
    | exit =>
      rw [processRecords_exit (stripTime r) _ _ hr,
        processRecords_exit r rest S hr]
      have hS : stripTime r :: S.map stripTime =
          (r :: S).map stripTime := rfl
      rw [hS, ih (r :: S)]
      rfl
    | entry =>
      cases S with
      | nil =>
        have h0 := ih []
        rw [List.map_nil] at h0
        rw [List.map_nil, processRecords_entry_nil (stripTime r) _ hr,
          processRecords_entry_nil r rest hr, h0]
        rfl
      | cons e stack =>
        rw [List.map_cons,
          processRecords_entry_cons (stripTime r) (stripTime e) _ _ hr,
          processRecords_entry_cons r e rest stack hr]
        simp only [stripTime_documentName, stripTime_documentNumber]
        by_cases hc : r.documentNumber = e.documentNumber ∧
            r.documentName = e.documentName
        · rw [if_pos hc, if_pos hc, ih stack]
          rfl
        · rw [if_neg hc, if_neg hc, ih stack]
          have hrec : ({ stripTime r with
              documentNumber := e.documentNumber,
              documentName := e.documentName } : BorderRecord) =
            stripTime { r with documentNumber := e.documentNumber,
                               documentName := e.documentName } := rfl
          have hiss : mismatchIssue (stripTime e) (stripTime r) =
              mismatchIssue e r := rfl
          rw [hrec, hiss]
          rfl

theorem upsertGroup_strip [DecidableEq κ]
    (m : List (κ × List BorderRecord)) (k : κ) (r : BorderRecord) :
    upsertGroup (m.map (fun p => (p.1, p.2.map stripTime))) k
        (stripTime r) =
      (upsertGroup m k r).map (fun p => (p.1, p.2.map stripTime)) := by
  induction m with
  | nil => rfl
  | cons p rest ih =>
    obtain ⟨k', g⟩ := p
    by_cases hk : k' = k
    · subst hk
      simp [upsertGroup]
    · simp only [List.map_cons, upsertGroup, if_neg hk, ih]

theorem fold_group_strip [DecidableEq κ] (f : BorderRecord → κ)
    (hf : ∀ r, f (stripTime r) = f r) :
    ∀ (l : List BorderRecord) (m : List (κ × List BorderRecord)),
      (l.map stripTime).foldl
          (fun m r => upsertGroup m (f r) r)
          (m.map (fun p => (p.1, p.2.map stripTime))) =
        (l.foldl (fun m r => upsertGroup m (f r) r) m).map
          (fun p => (p.1, p.2.map stripTime)) := by
  intro l
  induction l with
  | nil => intro m; rfl
  | cons r rest ih =>
    intro m
    rw [List.map_cons, List.foldl_cons, List.foldl_cons, hf,
      upsertGroup_strip, ih]

theorem groupByDocument_strip (l : List BorderRecord) :
    groupByDocument (l.map stripTime) =
      (groupByDocument l).map (fun p => (p.1, p.2.map stripTime)) := by
  have h := fold_group_strip keyOf (fun r => rfl) l []
  rw [List.map_nil] at h
  exact h

theorem groupByDate_strip (l : List BorderRecord) :
    groupByDate (l.map stripTime) =
      (groupByDate l).map (fun p => (p.1, p.2.map stripTime)) := by
  have h := fold_group_strip (fun r : BorderRecord => r.date)
    (fun r => rfl) l []
  rw [List.map_nil] at h
  exact h

theorem sameDayIssue_strip (dt : Int) (recs : List BorderRecord) :
    sameDayIssue dt (recs.map stripTime) = sameDayIssue dt recs := by
  simp [sameDayIssue, List.map_map, Function.comp, List.length_map]

theorem detect_strip (l : List BorderRecord) :
    detectSameDayMultiple (l.map stripTime) = detectSameDayMultiple l := by
  rw [detectSameDayMultiple, detectSameDayMultiple, groupByDocument_strip]
  have hinner : ∀ (p : String × List BorderRecord),
      ((groupByDate (p.2.map stripTime)).filter
          (fun q => decide (2 < q.2.length))).map
        (fun q => sameDayIssue q.1 q.2) =
      ((groupByDate p.2).filter (fun q => decide (2 < q.2.length))).map
        (fun q => sameDayIssue q.1 q.2) := by
    intro p
    rw [groupByDate_strip, List.filter_map, List.map_map]
    rw [List.filter_congr (q := fun q => decide (2 < q.2.length))
      (by intro q hq; simp)]
    apply List.map_congr_left
    intro q hq
    exact sameDayIssue_strip q.1 q.2
  induction groupByDocument l with
  | nil => rfl
  | cons p gs ih =>
    rw [List.map_cons, List.flatMap_cons, List.flatMap_cons,
      List.map_append, List.map_append, ih]
    congr 1
    exact hinner p

theorem fillWalk_strip (today : Int) :
    ∀ (l : List BorderRecord) (ab : Bool) (le : Option Int)
      (s : Finset Int),
      fillWalk today (l.map stripTime) ab le s = fillWalk today l ab le s := by
  intro l
  induction l with
  | nil => intro ab le s; rfl
  | cons r rest ih =>
    intro ab le s
    rw [List.map_cons]
    cases hr : r.type with
    | exit =>
      have h1 : (stripTime r).type = BorderType.exit := hr
      simp only [fillWalk, h1, hr, stripTime_date]
      exact ih _ _ _
    | entry =>
      have h1 : (stripTime r).type = BorderType.entry := hr
      simp only [fillWalk, h1, hr, stripTime_date]
      exact ih _ _ _

theorem fillOverseasDaysCST_strip (l : List BorderRecord) (today : Int) :
    fillOverseasDaysCST (l.map stripTime) today =
      fillOverseasDaysCST l today := by
  rw [fillOverseasDaysCST, fillOverseasDaysCST, groupByDocument_strip]
  generalize (∅ : Finset Int) = s
  induction groupByDocument l generalizing s with
  | nil => rfl
  | cons p gs ih =>
    rw [List.map_cons, List.foldl_cons, List.foldl_cons,
      sortIdDesc_strip, fillWalk_strip]
    exact ih _

theorem segWalk_strip :
    ∀ (l : List BorderRecord) (oe : Option Int),
      segWalk (l.map stripTime) oe = segWalk l oe := by
  intro l
  induction l with
  | nil => intro oe; rfl
  | cons r rest ih =>
    intro oe
    rw [List.map_cons]
    cases hr : r.type with
    | exit =>
      have h1 : (stripTime r).type = BorderType.exit := hr
      simp only [segWalk, h1, hr, stripTime_date]
      exact ih _
    | entry =>
      have h1 : (stripTime r).type = BorderType.entry := hr
      simp only [segWalk, h1, hr, stripTime_date]
      cases oe with
      | none => exact ih _
      | some e => rw [ih]

theorem buildAbroadSegmentsCST_strip (l : List BorderRecord)
    (today : Int) :
    buildAbroadSegmentsCST (l.map stripTime) today =
      buildAbroadSegmentsCST l today := by
  rw [buildAbroadSegmentsCST, buildAbroadSegmentsCST,
    groupByDocument_strip]
  generalize ([] : List Segment) = acc
  induction groupByDocument l generalizing acc with
  | nil => rfl
  | cons p gs ih =>
    rw [List.map_cons, List.foldl_cons, List.foldl_cons,
      sortIdDesc_strip, segWalk_strip]
    exact ih _

theorem correct_strip_fields (l : List BorderRecord) :
    (correctDocumentMatching (l.map stripTime)).issues =
        (correctDocumentMatching l).issues ∧
    (correctDocumentMatching (l.map stripTime)).correctedCount =
        (correctDocumentMatching l).correctedCount ∧
    (correctDocumentMatching (l.map stripTime)).originalRecordsCount =
        (correctDocumentMatching l).originalRecordsCount ∧
    (correctDocumentMatching (l.map stripTime)).correctedRecords =
        (correctDocumentMatching l).correctedRecords.map stripTime := by
  have hsort := sortRecords_strip l
  have hproc := processRecords_strip (sortRecords l) []
  rw [List.map_nil] at hproc
  have hpair : pairingPhase (l.map stripTime) =
      ((pairingPhase l).1.map stripTime,
       (pairingPhase l).2.1, (pairingPhase l).2.2) := by
    rw [pairingPhase, hsort, hproc]
    rfl
  refine ⟨?_, ?_, ?_, ?_⟩
  · show (pairingPhase (l.map stripTime)).2.1 ++
        detectSameDayMultiple (pairingPhase (l.map stripTime)).1 = _
    rw [hpair]
    show (pairingPhase l).2.1 ++
        detectSameDayMultiple ((pairingPhase l).1.map stripTime) = _
    rw [detect_strip]
    rfl
  · show (pairingPhase (l.map stripTime)).2.2 = _
    rw [hpair]
    rfl
  · show (l.map stripTime).length = l.length
    rw [List.length_map]
  · show sortById (pairingPhase (l.map stripTime)).1 = _
    rw [hpair]
    show sortById ((pairingPhase l).1.map stripTime) = _
    rw [sortById_strip]
    rfl

theorem calc_strip_fields (l : List BorderRecord) (qs qe today : Int) :
    (calculateOverseasDays (l.map stripTime) qs qe today).totalOverseasDays
        = (calculateOverseasDays l qs qe today).totalOverseasDays ∧
    (calculateOverseasDays (l.map stripTime) qs qe today).totalRecords
        = (calculateOverseasDays l qs qe today).totalRecords ∧
    (calculateOverseasDays (l.map stripTime) qs qe today).overseasRecords
        = (calculateOverseasDays l qs qe today).overseasRecords.map
            stripTime ∧
    (calculateOverseasDays (l.map stripTime) qs qe today).domesticRecords
        = (calculateOverseasDays l qs qe today).domesticRecords.map
            stripTime := by
  have hrange : (l.map stripTime).filter
      (fun r => decide (qs ≤ r.date ∧ r.date ≤ qe)) =
      (l.filter (fun r => decide (qs ≤ r.date ∧ r.date ≤ qe))).map
        stripTime := by
    rw [List.filter_map]
    exact congrArg _ (List.filter_congr (fun a ha => rfl))
  have hseg := buildAbroadSegmentsCST_strip l today
  refine ⟨?_, ?_, ?_, ?_⟩
  · show countOverseas qs qe (fillOverseasDaysCST (l.map stripTime) today)
        = _
    rw [fillOverseasDaysCST_strip]
    rfl
  · show ((l.map stripTime).filter
        (fun r => decide (qs ≤ r.date ∧ r.date ≤ qe))).length = _
    rw [hrange, List.length_map]
    rfl
  · show ((l.map stripTime).filter
        (fun r => decide (qs ≤ r.date ∧ r.date ≤ qe))).filter
          (fun r => inAnySegment today
            (buildAbroadSegmentsCST (l.map stripTime) today) r.date) = _
    rw [hrange, hseg, List.filter_map]
    exact congrArg _ (List.filter_congr (fun a ha => rfl))
  · show ((l.map stripTime).filter
        (fun r => decide (qs ≤ r.date ∧ r.date ≤ qe))).filter
          (fun r => !(inAnySegment today
            (buildAbroadSegmentsCST (l.map stripTime) today) r.date)) = _
    rw [hrange, hseg, List.filter_map]
    exact congrArg _ (List.filter_congr (fun a ha => rfl))

/-! ### C9 -/

/-- C9: the `time` field is never read: two inputs whose records agree
on every field except `time` (their `stripTime` images coincide) yield
the same issues, the same correction and record counts, `stripTime`-equal
corrected records, and for every query window the same
`totalOverseasDays`, the same `totalRecords`, and `stripTime`-equal
overseas/domestic record classifications. -/
theorem time_fields_never_read (l₁ l₂ : List BorderRecord)
    (h : l₁.map stripTime = l₂.map stripTime) :
    (correctDocumentMatching l₁).issues =
        (correctDocumentMatching l₂).issues ∧
    (correctDocumentMatching l₁).correctedCount =
        (correctDocumentMatching l₂).correctedCount ∧
    (correctDocumentMatching l₁).originalRecordsCount =
        (correctDocumentMatching l₂).originalRecordsCount ∧
    (correctDocumentMatching l₁).correctedRecords.map stripTime =
        (correctDocumentMatching l₂).correctedRecords.map stripTime ∧
    ∀ qs qe today : Int,
      (calculateOverseasDays l₁ qs qe today).totalOverseasDays =
          (calculateOverseasDays l₂ qs qe today).totalOverseasDays ∧
      (calculateOverseasDays l₁ qs qe today).totalRecords =
          (calculateOverseasDays l₂ qs qe today).totalRecords ∧
      (calculateOverseasDays l₁ qs qe today).overseasRecords.map
          stripTime =
        (calculateOverseasDays l₂ qs qe today).overseasRecords.map
          stripTime ∧
      (calculateOverseasDays l₁ qs qe today).domesticRecords.map
          stripTime =
        (calculateOverseasDays l₂ qs qe today).domesticRecords.map
          stripTime := by
  obtain ⟨hi1, hc1, ho1, hr1⟩ := correct_strip_fields l₁
  obtain ⟨hi2, hc2, ho2, hr2⟩ := correct_strip_fields l₂
  refine ⟨?_, ?_, ?_, ?_, ?_⟩
  · rw [← hi1, ← hi2, h]
  · rw [← hc1, ← hc2, h]
  · rw [← ho1, ← ho2, h]
  · rw [← hr1, ← hr2, h]
  · intro qs qe today
    obtain ⟨ht1, hn1, hov1, hdo1⟩ := calc_strip_fields l₁ qs qe today
    obtain ⟨ht2, hn2, hov2, hdo2⟩ := calc_strip_fields l₂ qs qe today
    refine ⟨?_, ?_, ?_, ?_⟩
    · rw [← ht1, ← ht2, h]
    · rw [← hn1, ← hn2, h]
    · rw [← hov1, ← hov2, h]
    · rw [← hdo1, ← hdo2, h]

theorem time_fields_never_read_witness :
    ([mkRec 1 BorderType.exit 1 "P" "P1"].map stripTime =
      [{ mkRec 1 BorderType.exit 1 "P" "P1" with
          time := some "08:00" }].map stripTime) ∧
    (correctDocumentMatching
        [mkRec 1 BorderType.exit 1 "P" "P1"]).issues =
      (correctDocumentMatching
        [{ mkRec 1 BorderType.exit 1 "P" "P1" with
            time := some "08:00" }]).issues := by
  refine ⟨rfl, ?_⟩
  exact (time_fields_never_read
    [mkRec 1 BorderType.exit 1 "P" "P1"]
    [{ mkRec 1 BorderType.exit 1 "P" "P1" with time := some "08:00" }]
    rfl).1

/-! ### The day-fill walk as a union of day sets -/

@[simp] theorem mkRec_type (i : Int) (ty : BorderType) (d : Int)
    (nm num : String) : (mkRec i ty d nm num).type = ty := rfl

@[simp] theorem mkRec_date (i : Int) (ty : BorderType) (d : Int)
    (nm num : String) : (mkRec i ty d nm num).date = d := rfl

@[simp] theorem mkRec_id (i : Int) (ty : BorderType) (d : Int)
    (nm num : String) : (mkRec i ty d nm num).id = i := rfl

@[simp] theorem keyOf_mkRec (i : Int) (ty : BorderType) (d : Int)
    (nm num : String) :
    keyOf (mkRec i ty d nm num) = num ++ "__" ++ nm := rfl

theorem fillWalk_union (today : Int) :
    ∀ (l : List BorderRecord) (ab : Bool) (le : Option Int)
      (s : Finset Int),
      fillWalk today l ab le s = s ∪ fillWalk today l ab le ∅ := by
  intro l
  induction l with
  | nil =>
    intro ab le s
    cases ab with
    | false => simp [fillWalk]
    | true =>
      cases le with
      | none => simp [fillWalk]
      | some e => simp [fillWalk, fillDays_eq]
  | cons r rest ih =>
    intro ab le s
    cases hr : r.type with
    | exit =>
      cases ab with
      | false =>
        simp only [fillWalk, hr]
        simp
        exact ih true (some r.date) s
      | true =>
        cases le with
        | none =>
          simp only [fillWalk, hr]
          simp
          exact ih true (some r.date) s
        | some e =>
          simp only [fillWalk, hr]
          simp [fillDays_eq]
          rw [ih true (some r.date) (s ∪ Finset.Icc e (r.date - 1)),
            ih true (some r.date) (Finset.Icc e (r.date - 1)),
            Finset.union_assoc]
    | entry =>
      cases ab with
      | false =>
        simp only [fillWalk, hr]
        simp
        exact ih false none s
      | true =>
        cases le with
        | none =>
          simp only [fillWalk, hr]
          simp
          exact ih false none s
        | some e =>
          simp only [fillWalk, hr]
          simp [fillDays_eq]
          rw [ih false none (s ∪ Finset.Icc e r.date),
            ih false none (Finset.Icc e r.date),
            Finset.union_assoc]

/-! ### A stable sort leaves an already-sorted list unchanged -/

theorem stableInsert_append (after : α → α → Bool) (x : α) :
    ∀ (l : List α), (∀ y ∈ l, after y x = false) →
      stableInsert after x l = l ++ [x] := by
  intro l
  induction l with
  | nil => intro _; rfl
  | cons y ys ih =>
    intro h
    rw [stableInsert, if_neg, ih (fun z hz => h z (List.mem_cons_of_mem _ hz)),
      List.cons_append]
    rw [h y (List.mem_cons_self _ _)]
    exact Bool.false_ne_true

theorem stableSortBy_of_sorted (after : α → α → Bool) :
    ∀ (l acc : List α), (∀ a ∈ acc, ∀ b ∈ l, after a b = false) →
      l.Pairwise (fun a b => after a b = false) →
      l.foldl (fun acc x => stableInsert after x acc) acc = acc ++ l := by
  intro l
  induction l with
  | nil => intro acc _ _; simp
  | cons x l ih =>
    intro acc hcross hl
    rw [List.foldl_cons,
      stableInsert_append after x acc
        (fun y hy => hcross y hy x (List.mem_cons_self _ _)),
      ih (acc ++ [x]) ?_ (List.Pairwise.of_cons hl)]
    · simp
    · intro a ha b hb
      rcases List.mem_append.mp ha with ha' | ha'
      · exact hcross a ha' b (List.mem_cons_of_mem _ hb)
      · rcases List.mem_singleton.mp ha' with rfl
        exact List.rel_of_pairwise_cons hl hb

theorem sortIdDesc_of_desc (l : List BorderRecord)
    (h : l.Pairwise (fun a b => b.id < a.id)) : sortIdDesc l = l := by
  have h' : l.Pairwise (fun a b =>
      (fun y x => decide (0 < compareIdDesc y x)) a b = false) := by
    refine h.imp ?_
    intro a b hab
    simp only [compareIdDesc, decide_eq_false_iff_not]
    omega
  have := stableSortBy_of_sorted
    (fun y x => decide (0 < compareIdDesc y x)) l [] (by simp) h'
  rw [sortIdDesc, stableSortBy, this, List.nil_append]

/-! ### Grouping a concatenation of key-homogeneous blocks -/

theorem upsert_new [DecidableEq κ] :
    ∀ (m : List (κ × List α)) (k : κ) (x : α),
      k ∉ m.map Prod.fst → upsertGroup m k x = m ++ [(k, [x])] := by
  intro m
  induction m with
  | nil => intro k x _; rfl
  | cons p rest ih =>
    intro k x h
    obtain ⟨k', g⟩ := p
    rw [List.map_cons, List.mem_cons] at h
    push_neg at h
    rw [upsertGroup, if_neg (fun hh => h.1 hh.symm), ih k x h.2,
      List.cons_append]

theorem upsert_append [DecidableEq κ] :
    ∀ (m₀ : List (κ × List α)) (k : κ) (g : List α) (x : α),
      k ∉ m₀.map Prod.fst →
      upsertGroup (m₀ ++ [(k, g)]) k x = m₀ ++ [(k, g ++ [x])] := by
  intro m₀
  induction m₀ with
  | nil => intro k g x _; simp [upsertGroup]
  | cons p rest ih =>
    intro k g x h
    obtain ⟨k', g'⟩ := p
    rw [List.map_cons, List.mem_cons] at h
    push_neg at h
    rw [List.cons_append, upsertGroup, if_neg (fun hh => h.1 hh.symm),
      ih k g x h.2, List.cons_append]

theorem fold_const_block [DecidableEq κ] (f : α → κ) (k : κ) :
    ∀ (ev : List α) (m₀ : List (κ × List α)) (g : List α),
      (∀ x ∈ ev, f x = k) → k ∉ m₀.map Prod.fst →
      ev.foldl (fun m x => upsertGroup m (f x) x) (m₀ ++ [(k, g)]) =
        m₀ ++ [(k, g ++ ev)] := by
  intro ev
  induction ev with
  | nil => intro m₀ g _ _; simp
  | cons x ev ih =>
    intro m₀ g hev hk
    rw [List.foldl_cons, hev x (List.mem_cons_self _ _),
      upsert_append m₀ k g x hk,
      ih m₀ (g ++ [x]) (fun y hy => hev y (List.mem_cons_of_mem _ hy)) hk]
    simp

theorem fold_fresh_block [DecidableEq κ] (f : α → κ) (k : κ)
    (ev : List α) (m : List (κ × List α))
    (hev : ∀ x ∈ ev, f x = k) (hk : k ∉ m.map Prod.fst)
    (hne : ev ≠ []) :
    ev.foldl (fun m x => upsertGroup m (f x) x) m = m ++ [(k, ev)] := by
  cases ev with
  | nil => exact absurd rfl hne
  | cons x ev' =>
    rw [List.foldl_cons, hev x (List.mem_cons_self _ _),
      upsert_new m k x hk,
      fold_const_block f k ev' m [x]
        (fun y hy => hev y (List.mem_cons_of_mem _ hy)) hk]
    rfl

theorem keyOf_docEvents (d : DocSpec) :
    ∀ x ∈ docEvents d, keyOf x = docKey d := by
  intro x hx
  rw [docEvents] at hx
  rcases List.mem_flatMap.mp hx with ⟨t, _, hxt⟩
  rw [tripEvents] at hxt
  rcases List.mem_cons.mp hxt with rfl | h2
  · rfl
  rcases List.mem_cons.mp h2 with rfl | h3
  · rfl
  cases h3

theorem docEvents_ne_nil (d : DocSpec) (h : d.trips ≠ []) :
    docEvents d ≠ [] := by
  rw [docEvents]
  cases ht : d.trips with
  | nil => exact absurd ht h
  | cons t ts => simp [tripEvents]

theorem fold_docs :
    ∀ (docs : List DocSpec) (m : List (String × List BorderRecord)),
      docs.Pairwise (fun a b => docKey a ≠ docKey b) →
      (∀ d ∈ docs, d.trips ≠ []) →
      (∀ d ∈ docs, docKey d ∉ m.map Prod.fst) →
      (docs.flatMap docEvents).foldl
          (fun m r => upsertGroup m (keyOf r) r) m =
        m ++ docs.map (fun d => (docKey d, docEvents d)) := by
  intro docs
  induction docs with
  | nil => intro m _ _ _; simp
  | cons d docs ih =>
    intro m hpw hne hnotin
    rw [List.flatMap_cons, List.foldl_append,
      fold_fresh_block keyOf (docKey d) (docEvents d) m
        (keyOf_docEvents d) (hnotin d (List.mem_cons_self _ _))
        (docEvents_ne_nil d (hne d (List.mem_cons_self _ _))),
      ih (m ++ [(docKey d, docEvents d)]) (List.Pairwise.of_cons hpw)
        (fun d' hd' => hne d' (List.mem_cons_of_mem _ hd')) ?_]
    · simp
    · intro d' hd'
      rw [List.map_append, List.mem_append]
      push_neg
      refine ⟨hnotin d' (List.mem_cons_of_mem _ hd'), ?_⟩
      have hdd' : docKey d ≠ docKey d' :=
        List.rel_of_pairwise_cons hpw hd'
      simp only [List.map_cons, List.map_nil, List.mem_singleton]
      exact fun hh => hdd' hh.symm

theorem groupByDocument_mkInput (docs : List DocSpec)
    (h1 : docs.Pairwise (fun a b => docKey a ≠ docKey b))
    (h2 : ∀ d ∈ docs, d.trips ≠ []) :
    groupByDocument (mkInput docs) =
      docs.map (fun d => (docKey d, docEvents d)) := by
  have h := fold_docs docs [] h1 h2 (by simp)
  rw [groupByDocument, mkInput]
  rw [h]
  rfl

theorem fillWalk_docEvents (today : Int) (nm num : String) :
    ∀ (trips : List Trip),
      fillWalk today (trips.flatMap (tripEvents nm num)) false none ∅ =
        listUnion (trips.map tripDays) := by
  intro trips
  induction trips with
  | nil => rfl
  | cons t ts ih =>
    rw [List.flatMap_cons, tripEvents, List.cons_append, List.cons_append,
      List.nil_append]
    have hu := fillWalk_union today (ts.flatMap (tripEvents nm num))
      false none (Finset.Icc t.exitDay t.entryDay)
    simp only [fillWalk, mkRec_type, mkRec_date]
    simp only [Bool.false_eq_true, if_false, if_true, fillDays_eq,
      Finset.empty_union]
    rw [hu, ih, List.map_cons, listUnion, tripDays]

theorem fillOverseas_fold (today : Int) :
    ∀ (gs : List (String × List BorderRecord)) (s : Finset Int),
      gs.foldl (fun s p => fillWalk today (sortIdDesc p.2) false none s) s =
        s ∪ listUnion (gs.map
          (fun p => fillWalk today (sortIdDesc p.2) false none ∅)) := by
  intro gs
  induction gs with
  | nil => intro s; simp [listUnion]
  | cons p gs ih =>
    intro s
    rw [List.foldl_cons,
      fillWalk_union today (sortIdDesc p.2) false none s, ih,
      List.map_cons, listUnion, Finset.union_assoc]

theorem mem_listUnion (d : Int) :
    ∀ (sets : List (Finset Int)),
      d ∈ listUnion sets ↔ ∃ t ∈ sets, d ∈ t := by
  intro sets
  induction sets with
  | nil => simp [listUnion]
  | cons a sets ih => simp [listUnion, ih]

theorem fill_mem_iff (records : List BorderRecord) (today d : Int) :
    d ∈ fillOverseasDaysCST records today ↔
      ∃ p ∈ groupByDocument records,
        d ∈ fillWalk today (sortIdDesc p.2) false none ∅ := by
  rw [fillOverseasDaysCST, fillOverseas_fold]
  simp only [Finset.empty_union, mem_listUnion, List.mem_map]
  constructor
  · rintro ⟨t, ⟨p, hp, rfl⟩, hd⟩
    exact ⟨p, hp, hd⟩
  · rintro ⟨p, hp, hd⟩
    exact ⟨_, ⟨p, hp, rfl⟩, hd⟩

theorem listUnion_append :
    ∀ (a b : List (Finset Int)),
      listUnion (a ++ b) = listUnion a ∪ listUnion b := by
  intro a b
  induction a with
  | nil => simp [listUnion]
  | cons s a ih => rw [List.cons_append, listUnion, listUnion, ih,
      Finset.union_assoc]

theorem disjoint_listUnion_right (a : Finset Int) :
    ∀ (sets : List (Finset Int)), (∀ b ∈ sets, Disjoint a b) →
      Disjoint a (listUnion sets) := by
  intro sets
  induction sets with
  | nil => intro _; simp [listUnion]
  | cons s sets ih =>
    intro h
    rw [listUnion, Finset.disjoint_union_right]
    exact ⟨h s (List.mem_cons_self _ _),
      ih (fun b hb => h b (List.mem_cons_of_mem _ hb))⟩

theorem listUnion_card :
    ∀ (sets : List (Finset Int)), sets.Pairwise Disjoint →
      (listUnion sets).card = (sets.map Finset.card).sum := by
  intro sets
  induction sets with
  | nil => intro _; simp [listUnion]
  | cons s sets ih =>
    intro hpw
    rcases List.pairwise_cons.mp hpw with ⟨hhead, htail⟩
    rw [listUnion, List.map_cons, List.sum_cons, ← ih htail]
    rw [Finset.card_union_of_disjoint
      (disjoint_listUnion_right s sets hhead)]

theorem countOverseas_eq (a b : Int) (s : Finset Int) :
    countOverseas a b s =
      ((Finset.Icc a b).filter (fun d => d ∈ s)).card := by
  rw [countOverseas, countDaysAux_eq]
  have h : Finset.Icc a (a + (((b - a + 1).toNat : ℕ) : ℤ) - 1) =
      Finset.Icc a b := by
    ext x
    simp only [Finset.mem_Icc]
    omega
  rw [h]

theorem count_eq_card_of_subset (a b : Int) (s : Finset Int)
    (h : ∀ d ∈ s, a ≤ d ∧ d ≤ b) : countOverseas a b s = s.card := by
  rw [countOverseas_eq]
  congr 1
  ext d
  simp only [Finset.mem_filter, Finset.mem_Icc]
  constructor
  · rintro ⟨_, hd⟩
    exact hd
  · intro hd
    exact ⟨h d hd, hd⟩

theorem tripDays_card (t : Trip) :
    (tripDays t).card = daysInclusiveCST t.exitDay t.entryDay := by
  rw [tripDays, Int.card_Icc, daysInclusiveCST_eq]
  omega

theorem sum_map_flatMap (f : Trip → ℕ) :
    ∀ (docs : List DocSpec),
      ((docs.flatMap (fun d => d.trips)).map f).sum =
        (docs.map (fun d => (d.trips.map f).sum)).sum := by
  intro docs
  induction docs with
  | nil => rfl
  | cons d docs ih =>
    rw [List.flatMap_cons, List.map_append, List.sum_append, ih,
      List.map_cons, List.sum_cons]

theorem listUnion_flatMap (docs : List DocSpec) :
    listUnion ((docs.flatMap (fun d => d.trips)).map tripDays) =
      listUnion (docs.map (fun d => listUnion (d.trips.map tripDays))) := by
  induction docs with
  | nil => rfl
  | cons d docs ih =>
    rw [List.flatMap_cons, List.map_append, listUnion_append, ih,
      List.map_cons, listUnion]

theorem fillOverseas_mkInput (docs : List DocSpec) (today : Int)
    (hkeys : docs.Pairwise (fun a b => docKey a ≠ docKey b))
    (hne : ∀ d ∈ docs, d.trips ≠ [])
    (hdesc : ∀ d ∈ docs,
      (docEvents d).Pairwise (fun a b => b.id < a.id)) :
    fillOverseasDaysCST (mkInput docs) today =
      listUnion ((docs.flatMap (fun d => d.trips)).map tripDays) := by
  rw [fillOverseasDaysCST, groupByDocument_mkInput docs hkeys hne,
    fillOverseas_fold, Finset.empty_union, List.map_map,
    listUnion_flatMap]
  congr 1
  apply List.map_congr_left
  intro d hd
  show fillWalk today (sortIdDesc (docEvents d)) false none ∅ = _
  rw [sortIdDesc_of_desc (docEvents d) (hdesc d hd)]
  exact fillWalk_docEvents today d.docName d.docNumber d.trips

/-! ### C2 -/

/-- C2: for a family of documents with pairwise distinct identities,
non-empty trip lists, chronologically consistent ids (numeric ids
strictly decreasing along each document's events) and pairwise
non-overlapping abroad spans, a query window covering all spans counts
exactly the sum over documents of the inclusive lengths of their spans;
moreover (for every input) a day lies in the overseas-day set iff some
document-identity group's fill walk puts the person abroad that day,
and the window count is a cardinality, so a day contributed by several
documents is counted once. -/
theorem disjoint_multi_document_total (docs : List DocSpec)
    (qs qe today : Int)
    (hkeys : docs.Pairwise (fun a b => docKey a ≠ docKey b))
    (hne : ∀ d ∈ docs, d.trips ≠ [])
    (hdesc : ∀ d ∈ docs,
      (docEvents d).Pairwise (fun a b => b.id < a.id))
    (hdisj : (docs.flatMap (fun d => d.trips)).Pairwise
      (fun t t' => Disjoint (tripDays t) (tripDays t')))
    (hcover : ∀ d ∈ docs, ∀ t ∈ d.trips,
      qs ≤ t.exitDay ∧ t.exitDay ≤ t.entryDay ∧ t.entryDay ≤ qe) :
    (calculateOverseasDays (mkInput docs) qs qe today).totalOverseasDays =
      (docs.map (fun d => (d.trips.map (fun t =>
        daysInclusiveCST t.exitDay t.entryDay)).sum)).sum ∧
    (∀ (records : List BorderRecord) (t d : Int),
      d ∈ fillOverseasDaysCST records t ↔
        ∃ p ∈ groupByDocument records,
          d ∈ fillWalk t (sortIdDesc p.2) false none ∅) := by
  refine ⟨?_, fun records t d => fill_mem_iff records t d⟩
  have hfill := fillOverseas_mkInput docs today hkeys hne hdesc
  rw [calc_total_def, hfill]
  have hsub : ∀ x ∈ listUnion ((docs.flatMap (fun d => d.trips)).map
      tripDays), qs ≤ x ∧ x ≤ qe := by
    intro x hx
    rcases (mem_listUnion x _).mp hx with ⟨ts, hts, hxts⟩
    rcases List.mem_map.mp hts with ⟨tr, htr, rfl⟩
    rcases List.mem_flatMap.mp htr with ⟨d, hd, htrd⟩
    have hc := hcover d hd tr htrd
    rw [tripDays, Finset.mem_Icc] at hxts
    omega
  rw [count_eq_card_of_subset qs qe _ hsub,
    listUnion_card _ (List.pairwise_map.mpr hdisj),
    List.map_map]
  have hcg : (docs.flatMap (fun d => d.trips)).map
      (Finset.card ∘ tripDays) =
      (docs.flatMap (fun d => d.trips)).map
        (fun t => daysInclusiveCST t.exitDay t.entryDay) :=
    List.map_congr_left (fun tr _ => tripDays_card tr)
  rw [hcg]
  exact sum_map_flatMap _ docs

theorem disjoint_multi_document_total_witness :
    (calculateOverseasDays
        (mkInput [⟨"P", "P1", [⟨4, 3, 10, 12⟩]⟩,
                  ⟨"H", "H1", [⟨2, 1, 20, 20⟩]⟩])
        0 30 100).totalOverseasDays = 4 := by
  have h := disjoint_multi_document_total
    [⟨"P", "P1", [⟨4, 3, 10, 12⟩]⟩, ⟨"H", "H1", [⟨2, 1, 20, 20⟩]⟩]
    0 30 100
    (by decide) (by decide) (by decide) (by decide) (by decide)
  rw [h.1]
  decide

end BorderTally
